import Mathlib

/-!
Verification of the convex-hull engine of this repository
(`convex_hull/algorithms/andrews.py`, `convex_hull/algorithms/quickhull.py`,
`convex_hull/algorithms/adapter.py`) against its specification.

Modelling conventions:
* A Python `(x, y)` float tuple is modelled as a pair of exact rationals
  (`Point := ℚ × ℚ`); all arithmetic in the source is polynomial except the
  final `atan2` resort in `quickhull_algorithm`, which is modelled by the
  exact angle order it induces on exact reals.
* Python lists are modelled as Lean lists.  An append (`xs.append v`) is
  `xs ++ [v]`, `xs[:-1]` is `xs.dropLast`, `xs.pop()` removes the last
  element, `reversed(xs)` is `xs.reverse`.
* Recursions that are not structural in Lean carry an explicit `fuel`
  argument; each caller passes a bound that is provably at least the
  recursion depth, so the `fuel = 0` fallback is never reached.
-/

attribute [local semireducible] Rat.sub Rat.add Rat.mul Rat.inv Rat.ofScientific

abbrev Point : Type := ℚ × ℚ

/-- Source `orientation(p, q, r)` from `andrews.py`, line 5: the cross product
`(q - p) × (r - p)`; positive means `r` lies left of the directed line
`p → q`. -/
def orientation (p q r : Point) : ℚ :=
  (q.1 - p.1) * (r.2 - p.2) - (q.2 - p.2) * (r.1 - p.1)

/-- The comparison used by `merge` in `andrews.py`, line 22:
`left[i][0] < right[j][0] or (left[i][0] == right[j][0] and left[i][1] < right[j][1])`. -/
def lexLt (a b : Point) : Bool :=
  decide (a.1 < b.1) || (decide (a.1 = b.1) && decide (a.2 < b.2))

/-- The non-strict lexicographic order on points (x first, then y): the
order in which `merge_sort` of `andrews.py` sorts its input. -/
def lexLe (a b : Point) : Prop :=
  a.1 < b.1 ∨ (a.1 = b.1 ∧ a.2 ≤ b.2)

/-- Pointwise negation of a point.  Negation reverses the lexicographic
order and preserves `orientation`, which transports facts about the lower
chain of `andrews.py` to its upper chain. -/
def negP (p : Point) : Point := (-p.1, -p.2)

/-- Source `merge(left, right)` from `andrews.py`, lines 18-30.  The source's while
loop consumes one element per iteration, so `left.length + right.length`
fuel always suffices. -/
def merge (fuel : ℕ) (left right : List Point) : List Point :=
  match fuel, left, right with
  | _, [], r => r
  | _, l, [] => l
  | 0, l, r => l ++ r
  | fuel + 1, a :: l, b :: r =>
      if lexLt a b then a :: merge fuel l (b :: r) else b :: merge fuel (a :: l) r

/-- Source `merge_sort(points)` from `andrews.py`, lines 9-16.  The recursion depth
is at most `points.length` (each level at least halves the length), so
`points.length` fuel suffices for the callers below. -/
def merge_sort (fuel : ℕ) (points : List Point) : List Point :=
  match fuel with
  | 0 => points
  | fuel + 1 =>
      if points.length ≤ 1 then points
      else
        let mid := points.length / 2
        merge (points.length)
          (merge_sort fuel (points.take mid)) (merge_sort fuel (points.drop mid))

/-- The sorted list `pts = merge_sort(points)` of `andrews.py`, line 53. -/
def sortPoints (points : List Point) : List Point :=
  merge_sort points.length points

/-- One step record of the monotone-chain trace (`andrews.py`, lines 44-50,
64-70, 76-82, 93-99, 105-111, 118-124).  The presentational `description`
string of the source dictionaries is omitted; `step`, `hull`, `active` and
`phase` are kept. -/
structure AStep where
  step : ℕ
  hull : List Point
  active : List Point
  phase : String
deriving DecidableEq, Repr

/-- The `while len(chain) >= 2 and orientation(chain[-2], chain[-1], p) <= 0:
chain.pop()` loop of `andrews.py` (lines 61-62 and 90-91), on a chain stored
as a stack whose head is the most recently appended point
(`b` is `chain[-1]`, `a` is `chain[-2]`). -/
def popWhile (p : Point) : List Point → List Point
  | b :: a :: rest => if orientation a b p ≤ 0 then popWhile p (a :: rest) else b :: a :: rest
  | s => s

/-- The chain-building loop of `andrews.py` (lines 58-74 resp. 86-103)
without step recording: fold the points, popping right turns and pushing the
current point.  The resulting stack lists the chain in reverse order. -/
def chainStack (pts : List Point) : List Point :=
  pts.foldl (fun st p => p :: popWhile p st) []

/-- The final `lower` chain of `andrews.py` in its natural order (the
argument is the sorted point list). -/
def lowerChain (pts : List Point) : List Point :=
  (chainStack pts).reverse

/-- The final `upper` chain of `andrews.py` (lines 86-103): the same loop
run over `reversed(pts)`. -/
def upperChain (pts : List Point) : List Point :=
  (chainStack pts.reverse).reverse

/-- The pop loop with step recording (`andrews.py`, lines 61-71 resp.
90-100): each removed point yields a step whose `hull` is a copy of the
chain after the pop and whose `active` is the removed point. -/
def popWhileSteps (phase : String) (p : Point) :
    List Point → List AStep → ℕ → List Point × List AStep × ℕ
  | b :: a :: rest, steps, ctr =>
      if orientation a b p ≤ 0 then
        popWhileSteps phase p (a :: rest)
          (steps ++ [⟨ctr, (a :: rest).reverse, [b], phase⟩]) (ctr + 1)
      else (b :: a :: rest, steps, ctr)
  | s, steps, ctr => (s, steps, ctr)

/-- One iteration of the chain-building loop with step recording
(`andrews.py`, lines 59-83 resp. 88-112): pop (recording each pop), then
append `p` and record the append step. -/
def chainStepsFoldStep (phase : String) (st : List Point × List AStep × ℕ) (p : Point) :
    List Point × List AStep × ℕ :=
  let popped := popWhileSteps phase p st.1 st.2.1 st.2.2
  (p :: popped.1, popped.2.1 ++ [⟨popped.2.2, (p :: popped.1).reverse, [p], phase⟩],
    popped.2.2 + 1)

/-- The full chain-building loop with step recording. -/
def chainStackSteps (phase : String) (pts : List Point) (steps : List AStep) (ctr : ℕ) :
    List Point × List AStep × ℕ :=
  pts.foldl (chainStepsFoldStep phase) ([], steps, ctr)

/-- Source `andrews_algorithm(points, step_mode=False)` from `andrews.py`,
lines 32-127: the final hull `lower[:-1] + upper[:-1]`, or the input itself
when it has at most one point. -/
def andrews_final (points : List Point) : List Point :=
  if points.length ≤ 1 then points
  else
    (lowerChain (sortPoints points)).dropLast ++ (upperChain (sortPoints points)).dropLast

/-- Source `andrews_algorithm(points, step_mode=True)` from `andrews.py`: the full
step trace.  The source computes the chains once and records steps along the
way; here the recording run is `chainStackSteps` and the recorded chains
agree with `chainStack` (theorem `chainStackSteps_fst` below). -/
def andrews_steps (points : List Point) : List AStep :=
  if points.length ≤ 1 then [⟨0, points, points, "complete"⟩]
  else
    let pts := sortPoints points
    let low := chainStackSteps "lower_hull" pts [] 0
    let up := chainStackSteps "upper_hull" pts.reverse low.2.1 low.2.2
    up.2.1 ++ [⟨up.2.2, low.1.reverse.dropLast ++ up.1.reverse.dropLast, [], "complete"⟩]

/-- Source `findSide(p1, p2, p)` from `quickhull.py`, lines 16-25. -/
def findSide (p1 p2 p : Point) : Int :=
  let val := (p.2 - p1.2) * (p2.1 - p1.1) - (p2.2 - p1.2) * (p.1 - p1.1)
  if 0 < val then 1 else if val < 0 then -1 else 0

/-- Source `lineDist(p1, p2, p)` from `quickhull.py`, lines 28-32. -/
def lineDist (p1 p2 p : Point) : ℚ :=
  |(p.2 - p1.2) * (p2.1 - p1.1) - (p2.2 - p1.2) * (p.1 - p1.1)|

/-- A rich quickhull step dictionary (`quickhull.py`, lines 53-58, 74, 85,
186, 214): `dividing_line` and `test_points` are present only in the
subdivision step. -/
structure QRich where
  hull : List Point
  active : List Point
  dividing_line : Option (Point × Point)
  test_points : Option (List Point)
deriving DecidableEq, Repr

/-- A raw quickhull trace entry.  For fewer than three input points the
source returns `[list(points)]` (line 169), a bare snapshot rather than a
dictionary; all other entries are rich dictionaries. -/
inductive QRaw where
  | bare (snapshot : List Point)
  | rich (s : QRich)
deriving DecidableEq, Repr

/-- The hull carried by a raw trace entry: the snapshot itself for a bare
entry, the `hull` field for a rich one. -/
def QRaw.hullOf : QRaw → List Point
  | QRaw.bare snapshot => snapshot
  | QRaw.rich s => s.hull

/-- Append a step to the optional step collector (`steps.append(...)` under
`if steps is not None`). -/
def pushStep (steps : Option (List QRaw)) (s : QRaw) : Option (List QRaw) :=
  steps.map (fun l => l ++ [s])

/-- The farthest-point scan of `quickHull` (`quickhull.py`, lines 48-65):
fold over the candidates keeping the first point that strictly exceeds the
running maximum distance among the points on the requested side.  Returns
`none` exactly when the source leaves `ind == -1`. -/
def selectFarthest (a : List Point) (p1 p2 : Point) (side : Int) : Option Point :=
  (a.foldl
    (fun acc p =>
      let temp := lineDist p1 p2 p
      if findSide p1 p2 p = side ∧ acc.2 < temp then (some p, temp) else acc)
    ((none : Option Point), (0 : ℚ))).1

/-- Source `hull.insert(hull.index(p2), x)` with the `ValueError` fallback
`hull.append(x)` (`quickhull.py`, lines 81-90): insert `x` immediately
before the first occurrence of `target`, or append if `target` is absent. -/
def insertBeforeOrAppend (x target : Point) : List Point → List Point
  | [] => [x]
  | h :: t => if h = target then x :: h :: t else h :: insertBeforeOrAppend x target t

/-- Source `quickHull(a, n, p1, p2, side, steps)` from `quickhull.py`, lines 35-107,
with the module-global `hull` and the optional `steps` list threaded
explicitly.  `fuel` bounds the recursion depth: every recursive call removes
at least the farthest point from the candidate list, so `a.length + 1` fuel
is always sufficient and the `0` fallback is unreachable. -/
def quickHullGo (fuel : ℕ) (a : List Point) (p1 p2 : Point) (side : Int)
    (hull : List Point) (steps : Option (List QRaw)) : List Point × Option (List QRaw) :=
  match fuel with
  | 0 => (hull, steps)
  | fuel + 1 =>
    let steps :=
      if 0 < a.length then
        pushStep steps (QRaw.rich
          ⟨hull, [], some (p1, p2), some (a.filter (fun p => findSide p1 p2 p = side))⟩)
      else steps
    match selectFarthest a p1 p2 side with
    | none =>
        let hull1 := if p1 ∈ hull then hull else hull ++ [p1]
        let hull2 := if p2 ∈ hull1 then hull1 else hull1 ++ [p2]
        (hull2, pushStep steps (QRaw.rich ⟨hull2, [], none, none⟩))
    | some farthest =>
        let hull1 := insertBeforeOrAppend farthest p2 hull
        let steps := pushStep steps (QRaw.rich ⟨hull1, [farthest], none, none⟩)
        let left_set := a.filter (fun p => p ≠ farthest ∧ findSide p1 farthest p = side)
        let right_set := a.filter (fun p => p ≠ farthest ∧ findSide farthest p2 p = side)
        let rec1 := quickHullGo fuel left_set p1 farthest side hull1 steps
        quickHullGo fuel right_set farthest p2 side rec1.1 rec1.2

/-- The `min_x` scan of `quickhull_algorithm` (`quickhull.py`, lines 173-177):
first point of strictly minimal x coordinate.  Only invoked on non-empty
lists; the empty case is a junk value. -/
def scanMinX : List Point → Point
  | [] => (0, 0)
  | p :: rest => rest.foldl (fun best q => if q.1 < best.1 then q else best) p

/-- The `max_x` scan of `quickhull_algorithm` (lines 173-179): first point of
strictly maximal x coordinate. -/
def scanMaxX : List Point → Point
  | [] => (0, 0)
  | p :: rest => rest.foldl (fun best q => if best.1 < q.1 then q else best) p

/-- The signed distance used for the top-level partition
(`quickhull.py`, line 194). -/
def topDist (pmin pmax p : Point) : ℚ :=
  (pmax.1 - pmin.1) * (p.2 - pmin.2) - (pmax.2 - pmin.2) * (p.1 - pmin.1)

/-- The exact angle class of `p` seen from centre `c`, mirroring the range
convention of `math.atan2`: class 0 for angles in `(-pi, 0)` (y below the
centre), 1 for angle `0` (y equal, x not left of the centre, including the
centre itself since `atan2(0, 0) = 0`), 2 for `(0, pi)`, 3 for `pi`. -/
def angleClass (c p : Point) : ℕ :=
  if p.2 - c.2 < 0 then 0
  else if p.2 - c.2 = 0 then (if p.1 - c.1 < 0 then 3 else 1)
  else 2

/-- Exact comparison of `math.atan2(p.y - c.y, p.x - c.x)` values
(`quickhull.py`, lines 208-210) for exact rational inputs: compare angle
classes first, then, inside an open half plane, the sign of the cross
product of the two direction vectors. -/
def angleLtB (c p q : Point) : Bool :=
  if angleClass c p ≠ angleClass c q then decide (angleClass c p < angleClass c q)
  else if angleClass c p = 0 ∨ angleClass c p = 2 then
    decide (0 < (p.1 - c.1) * (q.2 - c.2) - (p.2 - c.2) * (q.1 - c.1))
  else false

/-- Source `hull = sorted(hull, key=angle)` from `quickhull.py`, lines 205-211, with
the exact centroid and exact angle order.  Python's `sorted` is stable, and
for a total preorder every stable sort produces the same list, so Mathlib's
insertion sort with the non-strict order `angleLe` models it faithfully. -/
def angleSortHull (hull : List Point) : List Point :=
  let c : Point :=
    ((hull.map Prod.fst).sum / (hull.length : ℚ), (hull.map Prod.snd).sum / (hull.length : ℚ))
  List.insertionSort (fun p q => angleLtB c q p = false) hull

/-- The initial trace entry of `quickhull_algorithm` (`quickhull.py`,
line 186). -/
def quickhullInitSteps (points : List Point) : List QRaw :=
  [QRaw.rich ⟨[scanMinX points, scanMaxX points],
    [scanMinX points, scanMaxX points], none, none⟩]

/-- The `upper_points` partition of `quickhull_algorithm` (`quickhull.py`,
lines 189-198): points other than the two endpoints with strictly positive
signed distance from the dividing line. -/
def upper_points (points : List Point) : List Point :=
  points.filter (fun p => ¬(p = scanMinX points ∨ p = scanMaxX points) ∧
    0 < topDist (scanMinX points) (scanMaxX points) p)

/-- The `lower_points` partition of `quickhull_algorithm` (`quickhull.py`,
lines 189-198): strictly negative signed distance. -/
def lower_points (points : List Point) : List Point :=
  points.filter (fun p => ¬(p = scanMinX points ∨ p = scanMaxX points) ∧
    topDist (scanMinX points) (scanMaxX points) p < 0)

/-- The first recursive sweep of `quickhull_algorithm` (`quickhull.py`,
line 201), started on the ordered hull `[pmin, pmax]`. -/
def quickhullSweep1 (points : List Point) : List Point × Option (List QRaw) :=
  quickHullGo ((upper_points points).length + 1) (upper_points points)
    (scanMinX points) (scanMaxX points) 1 [scanMinX points, scanMaxX points]
    (some (quickhullInitSteps points))

/-- The second recursive sweep of `quickhull_algorithm` (`quickhull.py`,
line 202), continuing on the hull and steps left by the first sweep. -/
def quickhullSweep2 (points : List Point) : List Point × Option (List QRaw) :=
  quickHullGo ((lower_points points).length + 1) (lower_points points)
    (scanMaxX points) (scanMinX points) 1 (quickhullSweep1 points).1
    (quickhullSweep1 points).2

/-- The body of `quickhull_algorithm` for at least three points
(`quickhull.py`, lines 172-211): endpoint scan, top-level partition, the two
recursive sweeps, and the final angular resort (applied only when more than
two hull points were found, line 205).  Returns the final value of the
module-global `hull` together with the recorded steps (terminal step not yet
appended). -/
def quickhullCore (points : List Point) : List Point × List QRaw :=
  (if 2 < (quickhullSweep2 points).1.length then angleSortHull (quickhullSweep2 points).1
    else (quickhullSweep2 points).1,
   (quickhullSweep2 points).2.getD [])

/-- Source `quickhull_algorithm(points, step_mode=False)` from `quickhull.py`,
lines 151-225 (the source computes the same hull whether or not steps are
recorded; the embedding always records and final mode projects the hull). -/
def quickhull_final (points : List Point) : List Point :=
  if points.length < 3 then points else (quickhullCore points).1

/-- Source `quickhull_algorithm(points, step_mode=True)` from `quickhull.py`:
`[list(points)]` for fewer than three points (line 169), otherwise the
recorded steps followed by the terminal step of line 214. -/
def quickhull_steps (points : List Point) : List QRaw :=
  if points.length < 3 then [QRaw.bare points]
  else (quickhullCore points).2 ++ [QRaw.rich ⟨(quickhullCore points).1, [], none, none⟩]

/-- The value of the module-global `hull` of `quickhull.py` (line 13) after
`quickhull_algorithm` returns: the invocation first resets it to `[]`
(line 164) and, when at least three points are given, leaves the computed
hull in it; for fewer than three points it returns before touching it
again. -/
def quickhullGlobalAfter (points : List Point) : List Point :=
  if points.length < 3 then [] else (quickhullCore points).1

/-- A visualization step produced by the adapter (`adapter.py`, lines 98-101). -/
structure VizStep where
  hull : List Point
  active : List Point
deriving DecidableEq, Repr

/-- Source `detect_active_points(current_hull, previous_hull)` from `adapter.py`,
lines 26-48.  CPython builds `added` and `removed` by set difference and
lists them in unspecified set-iteration order; the claim compares `active`
as an unordered set, so the embedding lists each difference in first-seen
order (`dedup` plays the role of `set(...)`). -/
def detect_active_points (current_hull previous_hull : List Point) : List Point :=
  let added := current_hull.dedup.filter (fun p => p ∉ previous_hull)
  let removed := previous_hull.dedup.filter (fun p => p ∉ current_hull)
  let active := added ++ removed
  if active = [] then
    (match current_hull.getLast? with
     | some x => [x]
     | none => [])
  else active

/-- The loop of the `algorithm == "andrews"` branch of
`adapt_for_visualization` (`adapter.py`, lines 92-105), with the running
`previous_hull` made explicit. -/
def adaptGo : List (List Point) → List Point → List VizStep
  | [], _ => []
  | h :: t, prev => ⟨h, detect_active_points h prev⟩ :: adaptGo t h

/-- Source `adapt_for_visualization(raw_steps, all_points, algorithm="andrews")`
from `adapter.py`, lines 51-105, for a bare sequence of hull snapshots (the
monotone-chain branch; the quickhull branch passes dictionaries through
unchanged and is not needed by any claim).  `all_points` is unused by the
source as well.  The early `return []` for empty input coincides with the
loop on an empty list. -/
def adapt_for_visualization (raw_steps : List (List Point)) (all_points : List Point) :
    List VizStep :=
  adaptGo raw_steps []

/-- The algorithm selector of the spec's `compute` contract. -/
inductive Alg where
  | monotone_chain
  | quickhull
deriving DecidableEq

/-- The observable process state around an invocation: the module-global
`hull` of `quickhull.py` (line 13) and the caller's `points` list object. -/
structure PyState where
  hullGlobal : List Point
  callerPoints : List Point
deriving DecidableEq, Repr

/-- A builder's return value: a final hull, or a trace in the shape the
respective builder produces. -/
inductive HullResult where
  | final (hull : List Point)
  | traceAndrews (steps : List AStep)
  | traceQuick (steps : List QRaw)
deriving DecidableEq, Repr

/-- One invocation of a builder on the process state: the chosen builder
reads the caller's list, `andrews_algorithm` touches no module state, and
`quickhull_algorithm` first resets the module-global `hull` to `[]`
(line 164) — so its result is a function of the argument only — and leaves
the computed hull in it (for fewer than three points it returns right after
the reset, leaving `[]`). -/
def compute (alg : Alg) (step_mode : Bool) (s : PyState) : HullResult × PyState :=
  match alg, step_mode with
  | Alg.monotone_chain, false => (HullResult.final (andrews_final s.callerPoints), s)
  | Alg.monotone_chain, true => (HullResult.traceAndrews (andrews_steps s.callerPoints), s)
  | Alg.quickhull, false =>
      (HullResult.final (quickhull_final s.callerPoints),
        { s with hullGlobal := quickhullGlobalAfter s.callerPoints })
  | Alg.quickhull, true =>
      (HullResult.traceQuick (quickhull_steps s.callerPoints),
        { s with hullGlobal := quickhullGlobalAfter s.callerPoints })

/-- Formalization of claim C8's property for one hull: if the hull has at
least three vertices, the orientation of every cyclically consecutive
vertex triple is nonzero. -/
def noCollinearCyclicTriples (h : List Point) : Prop :=
  3 ≤ h.length →
    ∀ i ∈ List.range h.length,
      orientation (h.getD i (0, 0)) (h.getD ((i + 1) % h.length) (0, 0))
        (h.getD ((i + 2) % h.length) (0, 0)) ≠ 0

instance (h : List Point) : Decidable (noCollinearCyclicTriples h) := by
  unfold noCollinearCyclicTriples
  infer_instance

/-- Equality of two lists viewed as unordered sets of points. -/
def listSetEq (A B : List Point) : Prop := ∀ p ∈ A ++ B, (p ∈ A ↔ p ∈ B)

instance (A B : List Point) : Decidable (listSetEq A B) := by
  unfold listSetEq
  infer_instance

/-- The symmetric difference of two snapshots, listed as a set (each point
of exactly one side, in first-seen order). -/
def symmDiffList (cur prev : List Point) : List Point :=
  cur.filter (fun p => p ∉ prev) ++ prev.filter (fun p => p ∉ cur)

/-- Formalization of claim C5 as stated: for every output step `i` of the
adapter on a bare snapshot sequence, `active` equals (as an unordered set)
the symmetric difference of snapshot `i` and snapshot `i-1`; for `i = 0` it
is the empty set; and when the symmetric difference is empty but snapshot
`i` is non-empty, `active` is the one-element list holding the last point
of snapshot `i`. -/
def c5ClaimProp (raw : List (List Point)) : Prop :=
  ∀ i ∈ List.range raw.length,
    (if i = 0 then
      ((adapt_for_visualization raw []).getD i ⟨[], []⟩).active = []
    else if symmDiffList (raw.getD i []) (raw.getD (i - 1) []) = [] ∧ raw.getD i [] ≠ [] then
      ((adapt_for_visualization raw []).getD i ⟨[], []⟩).active =
        (raw.getD i []).getLast?.toList
    else
      listSetEq (((adapt_for_visualization raw []).getD i ⟨[], []⟩).active)
        (symmDiffList (raw.getD i []) (raw.getD (i - 1) [])))

instance (raw : List (List Point)) : Decidable (c5ClaimProp raw) := by
  unfold c5ClaimProp
  infer_instance

/-- A stack (a chain in reverse order) whose consecutive triples, read in
chain order, are all strict left turns. -/
def StackConvex (st : List Point) : Prop :=
  ∀ s1 x y z s2, st = s1 ++ x :: y :: z :: s2 → 0 < orientation z y x

/-- Scenario A input of the spec (square with interior point). -/
def scenarioA : List Point := [(0, 0), (4, 0), (4, 4), (0, 4), (2, 2)]

/-- Scenario B input of the spec (two points). -/
def scenarioB : List Point := [(0, 0), (1, 1)]

/-- Scenario C input of the spec (three collinear points). -/
def scenarioC : List Point := [(0, 0), (1, 0), (2, 0)]

/-- Scenario D input of the spec (empty input). -/
def scenarioD : List Point := []

/-!  Theorems.  -/

theorem popWhileSteps_fst (phase : String) (p : Point) :
    ∀ (stack : List Point) (steps : List AStep) (ctr : ℕ),
      (popWhileSteps phase p stack steps ctr).1 = popWhile p stack
  | b :: a :: rest, steps, ctr => by
      rw [popWhileSteps, popWhile]
      split
      · exact popWhileSteps_fst phase p (a :: rest) _ _
      · rfl
  | [], _, _ => rfl
  | [x], _, _ => rfl

theorem chainFoldSteps_fst (phase : String) :
    ∀ (pts : List Point) (s : List Point) (steps : List AStep) (ctr : ℕ),
      (pts.foldl (chainStepsFoldStep phase) (s, steps, ctr)).1 =
        pts.foldl (fun st q => q :: popWhile q st) s
  | [], _, _, _ => rfl
  | p :: pts, s, steps, ctr => by
      rw [List.foldl_cons, List.foldl_cons]
      have h : chainStepsFoldStep phase (s, steps, ctr) p =
          (p :: popWhile p s,
            (popWhileSteps phase p s steps ctr).2.1 ++
              [⟨(popWhileSteps phase p s steps ctr).2.2,
                (p :: popWhile p s).reverse, [p], phase⟩],
            (popWhileSteps phase p s steps ctr).2.2 + 1) := by
        rw [chainStepsFoldStep]
        rw [popWhileSteps_fst]
      rw [h]
      exact chainFoldSteps_fst phase pts _ _ _

theorem chainStackSteps_fst (phase : String) (pts : List Point) (steps : List AStep) (ctr : ℕ) :
    (chainStackSteps phase pts steps ctr).1 = chainStack pts := by
  rw [chainStackSteps, chainStack]
  exact chainFoldSteps_fst phase pts [] steps ctr

/-- C3: for each builder, the hull of the last step of the trace-mode run
equals the final-mode result on the same input. -/
theorem c3_trace_last_hull (points : List Point) :
    ((andrews_steps points).getLast?).map AStep.hull = some (andrews_final points) ∧
    ((quickhull_steps points).getLast?).map QRaw.hullOf = some (quickhull_final points) := by
  constructor
  · rw [andrews_steps, andrews_final]
    by_cases h : points.length ≤ 1
    · rw [if_pos h, if_pos h]
      rfl
    · rw [if_neg h, if_neg h]
      rw [List.getLast?_concat]
      rw [Option.map_some']
      rw [chainStackSteps_fst, chainStackSteps_fst]
      rfl
  · rw [quickhull_steps, quickhull_final]
    by_cases h : points.length < 3
    · rw [if_pos h, if_pos h]
      rfl
    · rw [if_neg h, if_neg h]
      rw [List.getLast?_concat]
      rfl

theorem merge_perm : ∀ (fuel : ℕ) (l r : List Point), List.Perm (merge fuel l r) (l ++ r)
  | _, [], r => by simp [merge]
  | 0, a :: l, [] => by simp [merge]
  | 0, a :: l, b :: r => by simp [merge]
  | fuel + 1, a :: l, [] => by simp [merge]
  | fuel + 1, a :: l, b :: r => by
      rw [merge]
      split
      · exact ((merge_perm fuel l (b :: r)).cons a)
      · exact ((merge_perm fuel (a :: l) r).cons b).trans List.perm_middle.symm

theorem merge_sort_perm :
    ∀ (fuel : ℕ) (points : List Point), List.Perm (merge_sort fuel points) points
  | 0, points => List.Perm.refl _
  | fuel + 1, points => by
      rw [merge_sort]
      split
      · exact List.Perm.refl _
      · refine ((merge_perm _ _ _).trans ?_)
        refine ((merge_sort_perm fuel _).append (merge_sort_perm fuel _)).trans ?_
        rw [List.take_append_drop]

theorem sortPoints_perm (points : List Point) : List.Perm (sortPoints points) points :=
  merge_sort_perm points.length points

theorem andrews_steps_pair_len (points : List Point) (u v : Point)
    (h2 : ¬ points.length ≤ 1) (hs : sortPoints points = [u, v]) :
    (andrews_steps points).length = 5 := by
  rw [andrews_steps, if_neg h2]
  simp only [hs]
  simp [chainStackSteps, chainStepsFoldStep, popWhileSteps]

/-- C6 (amended): for fewer than three points the quickhull trace is the
single bare snapshot of the input; the monotone-chain trace is a single
terminal step only for at most one point, while for exactly two points it
has five steps. -/
theorem c6_amended (points : List Point) (h : points.length < 3) :
    quickhull_steps points = [QRaw.bare points] ∧
    (points.length ≤ 1 → andrews_steps points = [⟨0, points, points, "complete"⟩]) ∧
    (points.length = 2 → (andrews_steps points).length = 5) := by
  refine ⟨?_, ?_, ?_⟩
  · rw [quickhull_steps, if_pos h]
  · intro h1
    rw [andrews_steps, if_pos h1]
  · intro h2
    have hl : (sortPoints points).length = 2 := by
      rw [(sortPoints_perm points).length_eq, h2]
    obtain ⟨u, v, huv⟩ := List.length_eq_two.mp hl
    exact andrews_steps_pair_len points u v (by omega) huv

/-- C6 (counterexample to the claim as stated): on the spec's own Scenario B
input of two points, the monotone-chain trace has five steps, not one. -/
theorem c6_counterexample : (andrews_steps scenarioB).length ≠ 1 := by decide

/-- C2 (counterexample to the claim as stated): on three points sharing one
x coordinate, the monotone-chain hull vertex set is the two extreme points
while the divide-and-conquer hull contains only the first point. -/
theorem c2_counterexample :
    ¬ ∀ p : Point,
        (p ∈ andrews_final [(0, 0), (0, 1), (0, 2)] ↔
          p ∈ quickhull_final [(0, 0), (0, 1), (0, 2)]) :=
  fun h => absurd ((h (0, 2)).mp (by decide)) (by decide)

/-- C2 (amended): the two builders can return different vertex sets, but
they agree (as sets) on the spec's four scenario inputs. -/
theorem c2_amended :
    (andrews_final scenarioA).toFinset = (quickhull_final scenarioA).toFinset ∧
    (andrews_final scenarioB).toFinset = (quickhull_final scenarioB).toFinset ∧
    (andrews_final scenarioC).toFinset = (quickhull_final scenarioC).toFinset ∧
    (andrews_final scenarioD).toFinset = (quickhull_final scenarioD).toFinset := by
  refine ⟨?_, ?_, ?_, ?_⟩ <;> decide

/-- C7 (counterexample to the claim as stated): after a quickhull
invocation returns, the working hull written by it is still present in the
module-global state. -/
theorem c7_counterexample :
    (compute Alg.quickhull false ⟨[], [(0, 0), (1, 0), (0, 1)]⟩).2.hullGlobal ≠ [] := by
  decide

/-- C7 (amended): the quickhull working hull is a module-level global that
remains populated after an invocation returns, but every invocation resets
it before use, so the result of an invocation never depends on module state
left behind by earlier invocations. -/
theorem c7_amended (alg : Alg) (mode : Bool) (s t : PyState)
    (h : s.callerPoints = t.callerPoints) :
    (compute alg mode s).1 = (compute alg mode t).1 := by
  cases alg <;> cases mode <;> simp [compute, h]

theorem c7_witness :
    (compute Alg.quickhull false ⟨[(9, 9)], [(0, 0), (1, 0), (0, 1)]⟩).1 =
      (compute Alg.quickhull false ⟨[], [(0, 0), (1, 0), (0, 1)]⟩).1 :=
  c7_amended Alg.quickhull false _ _ rfl

/-- C9: running the same builder in the same mode twice in a row in the same
process (the second invocation starting from the state the first one left)
yields identical results. -/
theorem c9_repeat_deterministic (alg : Alg) (mode : Bool) (s : PyState) :
    (compute alg mode (compute alg mode s).2).1 = (compute alg mode s).1 := by
  cases alg <;> cases mode <;> rfl

/-- C10: no builder invocation mutates the caller's input point list. -/
theorem c10_input_preserved (alg : Alg) (mode : Bool) (s : PyState) :
    (compute alg mode s).2.callerPoints = s.callerPoints := by
  cases alg <;> cases mode <;> rfl

/-- C8 (counterexample to the claim as stated): the divide-and-conquer
builder can return a hull with three consecutive collinear vertices. -/
theorem c8_counterexample :
    ¬ noCollinearCyclicTriples (quickhull_final [(1, 0), (0, 1), (0, 0), (0, 2)]) := by
  decide

theorem popWhile_suffix (p : Point) : ∀ s : List Point, List.IsSuffix (popWhile p s) s
  | b :: a :: rest => by
      rw [popWhile]
      split
      · exact (popWhile_suffix p (a :: rest)).trans (List.suffix_cons b (a :: rest))
      · exact List.suffix_refl _
  | [] => List.suffix_refl _
  | [x] => List.suffix_refl _

theorem popWhile_stop (p : Point) :
    ∀ (s : List Point) (b a : Point) (rest : List Point),
      popWhile p s = b :: a :: rest → 0 < orientation a b p
  | x :: y :: t, b, a, rest => by
      rw [popWhile]
      split
      · exact popWhile_stop p (y :: t) b a rest
      · rename_i hlt
        intro h
        injection h with h1 h
        injection h with h2 h
        subst h1
        subst h2
        exact not_le.mp hlt
  | [], _, _, _ => by
      intro h
      exact absurd h (by simp [popWhile])
  | [x], _, _, _ => by
      intro h
      exact absurd h (by simp [popWhile])

theorem StackConvex_suffix (s t : List Point) (hsuf : List.IsSuffix s t)
    (ht : StackConvex t) : StackConvex s := by
  obtain ⟨u, rfl⟩ := hsuf
  intro s1 x y z s2 hs
  exact ht (u ++ s1) x y z s2 (by rw [hs, List.append_assoc])

theorem StackConvex_push (p : Point) (st : List Point) (h : StackConvex st) :
    StackConvex (p :: popWhile p st) := by
  intro s1 x y z s2 hs
  cases s1 with
  | nil =>
      injection hs with h1 h2
      subst h1
      exact popWhile_stop p st y z s2 h2
  | cons w s1t =>
      injection hs with h1 h2
      exact StackConvex_suffix _ _ (popWhile_suffix p st) h s1t x y z s2 h2

theorem foldl_chain_convex :
    ∀ (pts : List Point) (st : List Point), StackConvex st →
      StackConvex (pts.foldl (fun s q => q :: popWhile q s) st)
  | [], _, h => h
  | p :: pts, st, h => foldl_chain_convex pts _ (StackConvex_push p st h)

theorem chainStack_convex (pts : List Point) : StackConvex (chainStack pts) :=
  foldl_chain_convex pts [] (by intro s1 x y z s2 hs; exact absurd hs (by simp))

theorem chainReverse_triples (pts l1 l2 : List Point) (a b c : Point)
    (h : (chainStack pts).reverse = l1 ++ a :: b :: c :: l2) : 0 < orientation a b c := by
  have h2 : chainStack pts = l2.reverse ++ c :: b :: a :: l1.reverse := by
    rw [← List.reverse_reverse (chainStack pts), h]
    simp
  exact chainStack_convex pts l2.reverse c b a l1.reverse h2

/-- C5 (counterexample to the claim as stated): on a single non-empty
snapshot, the adapter highlights every point of the snapshot (the set
difference against the initial empty `previous_hull`), not the empty set
the claim requires for step 0. -/
theorem c5_counterexample : ¬ c5ClaimProp [[(0, 0), (1, 1)]] := by decide

theorem adaptGo_getD :
    ∀ (raw : List (List Point)) (prev : List Point) (i : ℕ), i < raw.length →
      (adaptGo raw prev).getD i ⟨[], []⟩ =
        ⟨raw.getD i [], detect_active_points (raw.getD i [])
          (if i = 0 then prev else raw.getD (i - 1) [])⟩
  | h :: t, prev, 0, _ => by simp [adaptGo]
  | h :: t, prev, i + 1, hi => by
      rw [adaptGo]
      rw [List.getD_cons_succ, List.getD_cons_succ]
      rw [adaptGo_getD t h i (by simpa using hi)]
      by_cases h0 : i = 0
      · subst h0
        simp
      · obtain ⟨j, rfl⟩ : ∃ j, i = j + 1 :=
          ⟨i - 1, (Nat.succ_pred_eq_of_pos (Nat.pos_of_ne_zero h0)).symm⟩
        simp

theorem mem_addedRemoved_iff (cur prev : List Point) (p : Point) :
    (p ∈ cur.dedup.filter (fun q => q ∉ prev) ++ prev.dedup.filter (fun q => q ∉ cur)) ↔
      p ∈ symmDiffList cur prev := by
  simp [symmDiffList, List.mem_filter, List.mem_dedup, List.mem_append]

theorem addedRemoved_nil_iff (cur prev : List Point) :
    (cur.dedup.filter (fun q => q ∉ prev) ++ prev.dedup.filter (fun q => q ∉ cur)) = [] ↔
      symmDiffList cur prev = [] := by
  rw [List.eq_nil_iff_forall_not_mem, List.eq_nil_iff_forall_not_mem]
  constructor
  · intro h p hp
    exact h p ((mem_addedRemoved_iff cur prev p).mpr hp)
  · intro h p hp
    exact h p ((mem_addedRemoved_iff cur prev p).mp hp)

theorem detect_of_symmDiff_nil (cur prev : List Point)
    (h : symmDiffList cur prev = []) (hc : cur ≠ []) :
    detect_active_points cur prev = cur.getLast?.toList := by
  simp only [detect_active_points]
  rw [if_pos ((addedRemoved_nil_iff cur prev).mpr h)]
  cases hgl : cur.getLast? with
  | none => exact absurd (List.getLast?_eq_none_iff.mp hgl) hc
  | some x => rfl

theorem detect_setEq (cur prev : List Point)
    (h : ¬ (symmDiffList cur prev = [] ∧ cur ≠ [])) :
    listSetEq (detect_active_points cur prev) (symmDiffList cur prev) := by
  simp only [detect_active_points]
  split
  · rename_i hnil
    have hs : symmDiffList cur prev = [] := (addedRemoved_nil_iff cur prev).mp hnil
    have hcur : cur = [] := by
      by_contra hc
      exact h ⟨hs, hc⟩
    subst hcur
    intro p hp
    rw [hs] at hp
    simp at hp
  · intro p hp
    exact mem_addedRemoved_iff cur prev p

/-- C5 (amended): for every output step `i` of the adapter on a bare
snapshot sequence, `active` equals, as an unordered set, the symmetric
difference of snapshot `i` and snapshot `i - 1`, where the snapshot before
step 0 is the empty snapshot (so for `i = 0` the difference is the whole
point set of snapshot 0, not the empty set); when that symmetric difference
is empty and snapshot `i` is non-empty, `active` is the one-element list
holding the last point of snapshot `i`. -/
theorem c5_amended (raw : List (List Point)) (all_points : List Point) (i : ℕ)
    (hi : i < raw.length) :
    (symmDiffList (raw.getD i []) (if i = 0 then [] else raw.getD (i - 1) []) = [] ∧
        raw.getD i [] ≠ [] →
      ((adapt_for_visualization raw all_points).getD i ⟨[], []⟩).active =
        (raw.getD i []).getLast?.toList) ∧
    (¬ (symmDiffList (raw.getD i []) (if i = 0 then [] else raw.getD (i - 1) []) = [] ∧
        raw.getD i [] ≠ []) →
      listSetEq (((adapt_for_visualization raw all_points).getD i ⟨[], []⟩).active)
        (symmDiffList (raw.getD i []) (if i = 0 then [] else raw.getD (i - 1) []))) := by
  rw [adapt_for_visualization, adaptGo_getD raw [] i hi]
  constructor
  · intro hcase
    exact detect_of_symmDiff_nil _ _ hcase.1 hcase.2
  · intro hcase
    exact detect_setEq _ _ hcase

theorem c5_witness :
    (symmDiffList ([[((0 : ℚ), (0 : ℚ))], [(0, 0)]].getD 1 [])
        (if (1 : ℕ) = 0 then [] else [[((0 : ℚ), (0 : ℚ))], [(0, 0)]].getD 0 []) = [] ∧
      [[((0 : ℚ), (0 : ℚ))], [(0, 0)]].getD 1 [] ≠ [] →
      ((adapt_for_visualization [[((0 : ℚ), (0 : ℚ))], [(0, 0)]] []).getD 1 ⟨[], []⟩).active =
        ([[((0 : ℚ), (0 : ℚ))], [(0, 0)]].getD 1 []).getLast?.toList) ∧
    (¬ (symmDiffList ([[((0 : ℚ), (0 : ℚ))], [(0, 0)]].getD 1 [])
        (if (1 : ℕ) = 0 then [] else [[((0 : ℚ), (0 : ℚ))], [(0, 0)]].getD 0 []) = [] ∧
      [[((0 : ℚ), (0 : ℚ))], [(0, 0)]].getD 1 [] ≠ []) →
      listSetEq
        (((adapt_for_visualization [[((0 : ℚ), (0 : ℚ))], [(0, 0)]] []).getD 1 ⟨[], []⟩).active)
        (symmDiffList ([[((0 : ℚ), (0 : ℚ))], [(0, 0)]].getD 1 [])
          (if (1 : ℕ) = 0 then [] else [[((0 : ℚ), (0 : ℚ))], [(0, 0)]].getD 0 []))) :=
  c5_amended [[(0, 0)], [(0, 0)]] [] 1 (by decide)

theorem c6_witness :
    quickhull_steps scenarioB = [QRaw.bare scenarioB] ∧
    (scenarioB.length ≤ 1 → andrews_steps scenarioB = [⟨0, scenarioB, scenarioB, "complete"⟩]) ∧
    (scenarioB.length = 2 → (andrews_steps scenarioB).length = 5) :=
  c6_amended scenarioB (by decide)

theorem foldl_chainStack_mem :
    ∀ (pts : List Point) (st : List Point) (x : Point),
      x ∈ pts.foldl (fun s q => q :: popWhile q s) st → x ∈ pts ∨ x ∈ st
  | [], _, _, h => Or.inr h
  | p :: pts, st, x, h => by
      rcases foldl_chainStack_mem pts _ x h with h1 | h1
      · exact Or.inl (List.mem_cons_of_mem p h1)
      · rcases List.mem_cons.mp h1 with h2 | h2
        · exact Or.inl (h2 ▸ List.mem_cons_self p pts)
        · exact Or.inr ((popWhile_suffix p st).subset h2)

theorem chainStack_subset (pts : List Point) (x : Point) (h : x ∈ chainStack pts) : x ∈ pts := by
  rcases foldl_chainStack_mem pts [] x h with h1 | h1
  · exact h1
  · simp at h1

theorem andrews_final_subset (points : List Point) (p : Point)
    (h : p ∈ andrews_final points) : p ∈ points := by
  rw [andrews_final] at h
  split at h
  · exact h
  · rcases List.mem_append.mp h with h1 | h1
    · have h2 : p ∈ lowerChain (sortPoints points) := (List.dropLast_sublist _).subset h1
      rw [lowerChain, List.mem_reverse] at h2
      exact (sortPoints_perm points).mem_iff.mp (chainStack_subset _ p h2)
    · have h2 : p ∈ upperChain (sortPoints points) := (List.dropLast_sublist _).subset h1
      rw [upperChain, List.mem_reverse] at h2
      have h3 := chainStack_subset _ p h2
      rw [List.mem_reverse] at h3
      exact (sortPoints_perm points).mem_iff.mp h3

theorem selectFarthest_mem_aux :
    ∀ (a : List Point) (p1 p2 : Point) (side : Int) (acc : Option Point × ℚ) (f : Point),
      (a.foldl
        (fun acc p =>
          let temp := lineDist p1 p2 p
          if findSide p1 p2 p = side ∧ acc.2 < temp then (some p, temp) else acc)
        acc).1 = some f →
      f ∈ a ∨ acc.1 = some f
  | [], _, _, _, _, _, h => Or.inr h
  | p :: a, p1, p2, side, acc, f, h => by
      rcases selectFarthest_mem_aux a p1 p2 side _ f h with h1 | h1
      · exact Or.inl (List.mem_cons_of_mem p h1)
      · dsimp at h1
        split at h1
        · injection h1 with h2
          exact Or.inl (h2 ▸ List.mem_cons_self p a)
        · exact Or.inr h1

theorem selectFarthest_mem (a : List Point) (p1 p2 : Point) (side : Int) (f : Point)
    (h : selectFarthest a p1 p2 side = some f) : f ∈ a := by
  rw [selectFarthest] at h
  rcases selectFarthest_mem_aux a p1 p2 side ((none : Option Point), (0 : ℚ)) f h with h1 | h1
  · exact h1
  · exact absurd h1 (by simp)

theorem insertBeforeOrAppend_mem :
    ∀ (l : List Point) (x target y : Point),
      y ∈ insertBeforeOrAppend x target l → y = x ∨ y ∈ l
  | [], x, t, y, h => by
      rw [insertBeforeOrAppend] at h
      exact Or.inl (List.mem_singleton.mp h)
  | a :: l, x, t, y, h => by
      rw [insertBeforeOrAppend] at h
      split at h
      · rcases List.mem_cons.mp h with h1 | h1
        · exact Or.inl h1
        · exact Or.inr h1
      · rcases List.mem_cons.mp h with h1 | h1
        · exact Or.inr (h1 ▸ List.mem_cons_self a l)
        · rcases insertBeforeOrAppend_mem l x t y h1 with h2 | h2
          · exact Or.inl h2
          · exact Or.inr (List.mem_cons_of_mem a h2)

theorem memEnsure (x p : Point) (l : List Point) (c : Prop) [Decidable c]
    (h : x ∈ (if c then l else l ++ [p])) : x ∈ l ∨ x = p := by
  split at h
  · exact Or.inl h
  · rcases List.mem_append.mp h with h1 | h1
    · exact Or.inl h1
    · exact Or.inr (List.mem_singleton.mp h1)

theorem quickHullGo_mem :
    ∀ (fuel : ℕ) (a : List Point) (p1 p2 : Point) (side : Int) (hull : List Point)
      (steps : Option (List QRaw)) (x : Point),
      x ∈ (quickHullGo fuel a p1 p2 side hull steps).1 →
      x ∈ hull ∨ x ∈ a ∨ x = p1 ∨ x = p2
  | 0, _, _, _, _, _, _, _, h => Or.inl h
  | fuel + 1, a, p1, p2, side, hull, steps, x, h => by
      rw [quickHullGo] at h
      cases hsel : selectFarthest a p1 p2 side with
      | none =>
          rw [hsel] at h
          rcases memEnsure x p2 _ _ h with h1 | h1
          · rcases memEnsure x p1 hull _ h1 with h2 | h2
            · exact Or.inl h2
            · exact Or.inr (Or.inr (Or.inl h2))
          · exact Or.inr (Or.inr (Or.inr h1))
      | some far =>
          rw [hsel] at h
          have hfar : far ∈ a := selectFarthest_mem a p1 p2 side far hsel
          rcases quickHullGo_mem fuel _ far p2 side _ _ x h with h1 | h1 | h1 | h1
          · rcases quickHullGo_mem fuel _ p1 far side _ _ x h1 with h2 | h2 | h2 | h2
            · rcases insertBeforeOrAppend_mem hull far p2 x h2 with h3 | h3
              · exact Or.inr (Or.inl (h3 ▸ hfar))
              · exact Or.inl h3
            · exact Or.inr (Or.inl (List.mem_filter.mp h2).1)
            · exact Or.inr (Or.inr (Or.inl h2))
            · exact Or.inr (Or.inl (h2 ▸ hfar))
          · exact Or.inr (Or.inl (List.mem_filter.mp h1).1)
          · exact Or.inr (Or.inl (h1 ▸ hfar))
          · exact Or.inr (Or.inr (Or.inr h1))

theorem foldl_choice_mem (g : Point → Point → Point)
    (hg : ∀ b q, g b q = b ∨ g b q = q) :
    ∀ (rest : List Point) (best : Point),
      rest.foldl g best = best ∨ rest.foldl g best ∈ rest
  | [], _ => Or.inl rfl
  | q :: rest, best => by
      rw [List.foldl_cons]
      rcases foldl_choice_mem g hg rest (g best q) with h | h
      · rcases hg best q with h2 | h2
        · exact Or.inl (by rw [h, h2])
        · exact Or.inr (by rw [h, h2]; exact List.mem_cons_self q rest)
      · exact Or.inr (List.mem_cons_of_mem q h)

theorem scanMinX_mem : ∀ (points : List Point), points ≠ [] → scanMinX points ∈ points
  | [], h => absurd rfl h
  | p :: rest, _ => by
      rw [scanMinX]
      rcases foldl_choice_mem (fun best q => if q.1 < best.1 then q else best)
        (fun b q => by dsimp only; split; exacts [Or.inr rfl, Or.inl rfl]) rest p with h | h
      · rw [h]
        exact List.mem_cons_self p rest
      · exact List.mem_cons_of_mem p h

theorem scanMaxX_mem : ∀ (points : List Point), points ≠ [] → scanMaxX points ∈ points
  | [], h => absurd rfl h
  | p :: rest, _ => by
      rw [scanMaxX]
      rcases foldl_choice_mem (fun best q => if best.1 < q.1 then q else best)
        (fun b q => by dsimp only; split; exacts [Or.inr rfl, Or.inl rfl]) rest p with h | h
      · rw [h]
        exact List.mem_cons_self p rest
      · exact List.mem_cons_of_mem p h

theorem mem_angleSortHull (l : List Point) (x : Point) :
    x ∈ angleSortHull l ↔ x ∈ l := by
  rw [angleSortHull]
  exact (List.perm_insertionSort _ l).mem_iff

theorem quickhull_final_subset (points : List Point) (p : Point)
    (h : p ∈ quickhull_final points) : p ∈ points := by
  rw [quickhull_final] at h
  split at h
  · exact h
  · rename_i hn
    have hne : points ≠ [] := by
      intro he
      rw [he] at hn
      exact hn (by simp)
    have h2 : p ∈ (if 2 < (quickhullSweep2 points).1.length then
        angleSortHull (quickhullSweep2 points).1 else (quickhullSweep2 points).1) := h
    have h3 : p ∈ (quickhullSweep2 points).1 := by
      split at h2
      · exact (mem_angleSortHull _ p).mp h2
      · exact h2
    rw [quickhullSweep2] at h3
    rcases quickHullGo_mem _ _ _ _ _ _ _ p h3 with h4 | h4 | h4 | h4
    · rw [quickhullSweep1] at h4
      rcases quickHullGo_mem _ _ _ _ _ _ _ p h4 with h5 | h5 | h5 | h5
      · rcases List.mem_cons.mp h5 with h6 | h6
        · exact h6 ▸ scanMinX_mem points hne
        · exact (List.mem_singleton.mp h6) ▸ scanMaxX_mem points hne
      · exact (List.mem_filter.mp h5).1
      · exact h5 ▸ scanMinX_mem points hne
      · exact h5 ▸ scanMaxX_mem points hne
    · exact (List.mem_filter.mp h4).1
    · exact h4 ▸ scanMaxX_mem points hne
    · exact h4 ▸ scanMinX_mem points hne

/-- C4: every vertex of the final hull returned by either builder is one of
the input points. -/
theorem c4_hull_subset_input (points : List Point) (p : Point) :
    (p ∈ andrews_final points → p ∈ points) ∧
    (p ∈ quickhull_final points → p ∈ points) :=
  ⟨andrews_final_subset points p, quickhull_final_subset points p⟩

theorem c4_witness : ((0 : ℚ), (0 : ℚ)) ∈ scenarioA :=
  (c4_hull_subset_input scenarioA (0, 0)).1 (by decide)

theorem lexLe_refl (a : Point) : lexLe a a := Or.inr ⟨rfl, le_refl _⟩

theorem lexLe_trans {a b c : Point} (h1 : lexLe a b) (h2 : lexLe b c) : lexLe a c := by
  rcases h1 with h1 | ⟨h1x, h1y⟩ <;> rcases h2 with h2 | ⟨h2x, h2y⟩
  · exact Or.inl (h1.trans h2)
  · exact Or.inl (h2x ▸ h1)
  · exact Or.inl (h1x ▸ h2)
  · exact Or.inr ⟨h1x.trans h2x, h1y.trans h2y⟩

theorem lexLe_antisymm {a b : Point} (h1 : lexLe a b) (h2 : lexLe b a) : a = b := by
  rcases h1 with h1 | ⟨h1x, h1y⟩ <;> rcases h2 with h2 | ⟨h2x, h2y⟩
  · exact absurd (h1.trans h2) (lt_irrefl _)
  · exact absurd h1 (by rw [h2x]; exact lt_irrefl _)
  · exact absurd h2 (by rw [h1x]; exact lt_irrefl _)
  · exact Prod.ext h1x (le_antisymm h1y h2y)

theorem lexLe_x {a b : Point} (h : lexLe a b) : a.1 ≤ b.1 := by
  rcases h with h | ⟨hx, _⟩
  · exact le_of_lt h
  · exact le_of_eq hx

theorem lexLt_true_iff (a b : Point) :
    lexLt a b = true ↔ (a.1 < b.1 ∨ (a.1 = b.1 ∧ a.2 < b.2)) := by
  simp [lexLt]

theorem lexLe_of_lexLt {a b : Point} (h : lexLt a b = true) : lexLe a b := by
  rcases (lexLt_true_iff a b).mp h with h | ⟨hx, hy⟩
  · exact Or.inl h
  · exact Or.inr ⟨hx, le_of_lt hy⟩

theorem lexLe_of_not_lexLt {a b : Point} (h : ¬ lexLt a b = true) : lexLe b a := by
  rw [lexLt_true_iff] at h
  push_neg at h
  rcases lt_trichotomy a.1 b.1 with hx | hx | hx
  · exact absurd hx (not_lt.mpr h.1)
  · exact Or.inr ⟨hx.symm, h.2 hx⟩
  · exact Or.inl hx

theorem merge_sorted :
    ∀ (fuel : ℕ) (l r : List Point), l.length + r.length ≤ fuel →
      l.Pairwise lexLe → r.Pairwise lexLe → (merge fuel l r).Pairwise lexLe
  | _, [], r, _, _, hr => by simpa [merge] using hr
  | 0, a :: l, [], _, hl, _ => by simpa [merge] using hl
  | 0, a :: l, b :: r, hf, _, _ => by simp at hf
  | fuel + 1, a :: l, [], _, hl, _ => by simpa [merge] using hl
  | fuel + 1, a :: l, b :: r, hf, hl, hr => by
      rw [merge]
      rw [List.pairwise_cons] at hl hr
      split
      · rename_i hab
        rw [List.pairwise_cons]
        constructor
        · intro y hy
          rcases (merge_perm fuel l (b :: r)).subset hy |> List.mem_append.mp with h1 | h1
          · exact hl.1 y h1
          · rcases List.mem_cons.mp h1 with rfl | h1
            · exact lexLe_of_lexLt hab
            · exact lexLe_trans (lexLe_of_lexLt hab) (hr.1 y h1)
        · exact merge_sorted fuel l (b :: r) (by simp at hf ⊢; omega) hl.2
            (List.pairwise_cons.mpr hr)
      · rename_i hab
        rw [List.pairwise_cons]
        constructor
        · intro y hy
          rcases (merge_perm fuel (a :: l) r).subset hy |> List.mem_append.mp with h1 | h1
          · rcases List.mem_cons.mp h1 with rfl | h1
            · exact lexLe_of_not_lexLt hab
            · exact lexLe_trans (lexLe_of_not_lexLt hab) (hl.1 y h1)
          · exact hr.1 y h1
        · exact merge_sorted fuel (a :: l) r (by simp at hf ⊢; omega)
            (List.pairwise_cons.mpr hl) hr.2

theorem merge_sort_sorted :
    ∀ (fuel : ℕ) (pts : List Point), pts.length ≤ fuel →
      (merge_sort fuel pts).Pairwise lexLe
  | 0, pts, hf => by
      rw [Nat.le_zero, List.length_eq_zero] at hf
      subst hf
      simp [merge_sort]
  | fuel + 1, pts, hf => by
      rw [merge_sort]
      split
      · rename_i h1
        match pts, h1 with
        | [], _ => exact List.Pairwise.nil
        | [a], _ => exact List.pairwise_singleton _ _
      · rename_i h1
        push_neg at h1
        refine merge_sorted pts.length _ _ ?_ ?_ ?_
        · rw [(merge_sort_perm fuel (pts.take (pts.length / 2))).length_eq,
            (merge_sort_perm fuel (pts.drop (pts.length / 2))).length_eq]
          simp
          omega
        · exact merge_sort_sorted fuel _ (by simp; omega)
        · exact merge_sort_sorted fuel _ (by simp; omega)

theorem sortPoints_sorted (points : List Point) : (sortPoints points).Pairwise lexLe :=
  merge_sort_sorted points.length points le_rfl

theorem chainStack_append (q : List Point) (p : Point) :
    chainStack (q ++ [p]) = p :: popWhile p (chainStack q) := by
  simp [chainStack, List.foldl_append]

theorem popWhile_ne_nil (p : Point) : ∀ (s : List Point), s ≠ [] → popWhile p s ≠ []
  | b :: a :: rest, _ => by
      rw [popWhile]
      split
      · exact popWhile_ne_nil p (a :: rest) (by simp)
      · simp
  | [x], _ => by simp [popWhile]
  | [], h => absurd rfl h

theorem chainStack_ne_nil (q : List Point) (h : q ≠ []) : chainStack q ≠ [] := by
  induction q using List.reverseRecOn with
  | nil => exact absurd rfl h
  | append_singleton q₀ p ih =>
      rw [chainStack_append]
      simp

theorem chainStack_sublist (q : List Point) : (chainStack q).Sublist q.reverse := by
  induction q using List.reverseRecOn with
  | nil => simp [chainStack]
  | append_singleton q₀ p ih =>
      rw [chainStack_append, List.reverse_append]
      simp only [List.reverse_singleton, List.singleton_append]
      exact List.Sublist.cons₂ p (((popWhile_suffix p (chainStack q₀)).sublist).trans ih)

theorem chainStack_top (q : List Point) (p : Point) :
    (chainStack (q ++ [p])).head? = some p := by
  rw [chainStack_append]
  rfl

theorem getLast?_suffix {l s : List Point} (h : List.IsSuffix l s) (hne : l ≠ []) :
    s.getLast? = l.getLast? := by
  obtain ⟨w, rfl⟩ := h
  rcases l with _ | ⟨x, t⟩
  · exact absurd rfl hne
  · rw [List.getLast?_append_cons]

theorem chainStack_bottom : ∀ (q : List Point), q ≠ [] → (chainStack q).getLast? = q.head? := by
  intro q
  induction q using List.reverseRecOn with
  | nil => intro h; exact absurd rfl h
  | append_singleton q₀ p ih =>
      intro _
      rw [chainStack_append]
      rcases List.eq_nil_or_concat q₀ with rfl | ⟨q₁, x, he⟩
      · simp [chainStack, popWhile]
      · rw [List.concat_eq_append] at he
        subst he
        have h0 : q₁ ++ [x] ≠ [] := by simp
        have h1 : chainStack (q₁ ++ [x]) ≠ [] := chainStack_ne_nil _ h0
        have h2 : popWhile p (chainStack (q₁ ++ [x])) ≠ [] := popWhile_ne_nil p _ h1
        obtain ⟨t, ts, ht⟩ := List.exists_cons_of_ne_nil h2
        rw [ht, List.getLast?_cons_cons, ← ht]
        rw [← getLast?_suffix (popWhile_suffix p _) h2]
        rw [ih h0]
        rcases List.exists_cons_of_ne_nil h0 with ⟨y, ys, hy⟩
        rw [hy]
        simp

theorem chainStack_length_two (q : List Point) (h : 2 ≤ q.length) :
    2 ≤ (chainStack q).length := by
  rcases List.eq_nil_or_concat q with rfl | ⟨q₀, p, he⟩
  · simp at h
  · rw [List.concat_eq_append] at he
    subst he
    rw [chainStack_append]
    have h0 : q₀ ≠ [] := by
      intro he
      rw [he] at h
      simp at h
    have h2 : popWhile p (chainStack q₀) ≠ [] := popWhile_ne_nil p _ (chainStack_ne_nil _ h0)
    rcases List.exists_cons_of_ne_nil h2 with ⟨t, ts, ht⟩
    rw [ht]
    simp

theorem orientation_self_right (a b : Point) : orientation a b b = 0 := by
  unfold orientation
  ring

theorem orientation_self_mid (a b : Point) : orientation a b a = 0 := by
  unfold orientation
  ring

theorem chainStack_const (v : Point) : ∀ (q : List Point), (∀ x ∈ q, x = v) →
    chainStack q = [] ∨ chainStack q = [v] ∨ chainStack q = [v, v] := by
  intro q
  induction q using List.reverseRecOn with
  | nil => intro _; exact Or.inl rfl
  | append_singleton q₀ p ih =>
      intro hall
      have hp : v = p := (hall p (by simp)).symm
      subst hp
      have hall0 : ∀ x ∈ q₀, x = v := fun x hx => hall x (by simp [hx])
      rw [chainStack_append]
      rcases ih hall0 with h0 | h0 | h0 <;> rw [h0]
      · exact Or.inr (Or.inl rfl)
      · exact Or.inr (Or.inr (by simp [popWhile]))
      · refine Or.inr (Or.inr ?_)
        rw [popWhile]
        rw [if_pos (le_of_eq (orientation_self_right v v))]
        simp [popWhile]

theorem sorted_head_le {h : Point} {t : List Point} (hq : (h :: t).Pairwise lexLe)
    {x : Point} (hx : x ∈ h :: t) : lexLe h x := by
  rcases List.mem_cons.mp hx with rfl | hx
  · exact lexLe_refl x
  · exact (List.pairwise_cons.mp hq).1 x hx

theorem sorted_le_last {q : List Point} (hq : q.Pairwise lexLe) {x m : Point} {q' : List Point}
    (he : q = q' ++ [m]) (hx : x ∈ q) : lexLe x m := by
  subst he
  rcases List.mem_append.mp hx with h1 | h1
  · exact (List.pairwise_append.mp hq).2.2 x h1 m (by simp)
  · rw [List.mem_singleton.mp h1]
    exact lexLe_refl m

theorem sorted_all_eq {q : List Point} (hq : q.Pairwise lexLe) {v : Point} {t q' : List Point}
    (h1 : q = v :: t) (h2 : q = q' ++ [v]) : ∀ x ∈ q, x = v := by
  intro x hx
  exact lexLe_antisymm (sorted_le_last hq h2 hx) (sorted_head_le (h1 ▸ hq) (h1 ▸ hx))

theorem orientation_negP (a b c : Point) :
    orientation (negP a) (negP b) (negP c) = orientation a b c := by
  simp only [orientation, negP]
  ring

theorem lexLe_negP {a b : Point} (h : lexLe a b) : lexLe (negP b) (negP a) := by
  rcases h with h | ⟨hx, hy⟩
  · exact Or.inl (by simp [negP]; exact h)
  · exact Or.inr ⟨by simp [negP]; exact hx.symm, by simp [negP]; exact hy⟩

theorem pairwise_neg_reverse {q : List Point} (hq : q.Pairwise lexLe) :
    (q.reverse.map negP).Pairwise lexLe := by
  rw [List.pairwise_map, List.pairwise_reverse]
  exact hq.imp lexLe_negP

theorem popWhile_negP (p : Point) : ∀ (s : List Point),
    popWhile (negP p) (s.map negP) = (popWhile p s).map negP
  | b :: a :: rest => by
      by_cases hc : orientation a b p ≤ 0
      · simp only [List.map_cons, popWhile, orientation_negP, if_pos hc]
        exact popWhile_negP p (a :: rest)
      · simp only [List.map_cons, popWhile, orientation_negP, if_neg hc]
  | [] => rfl
  | [x] => rfl

theorem chainStack_negP (q : List Point) :
    chainStack (q.map negP) = (chainStack q).map negP := by
  induction q using List.reverseRecOn with
  | nil => rfl
  | append_singleton q₀ p ih =>
      rw [List.map_append, List.map_singleton, chainStack_append, chainStack_append, ih,
        popWhile_negP]
      rfl

theorem popWhile_spec (p : Point) : ∀ (s : List Point),
    popWhile p s = s ∨ ∃ h b r, popWhile p s = b :: r ∧
      List.IsSuffix (h :: b :: r) s ∧ orientation b h p ≤ 0
  | b :: a :: rest => by
      rw [popWhile]
      split
      · rename_i hc
        rcases popWhile_spec p (a :: rest) with h1 | ⟨h', b', r', h1, h2, h3⟩
        · rw [h1]
          exact Or.inr ⟨b, a, rest, rfl, List.suffix_refl _, hc⟩
        · exact Or.inr ⟨h', b', r', h1, h2.trans (List.suffix_cons b (a :: rest)), h3⟩
      · exact Or.inl rfl
  | [] => Or.inl rfl
  | [x] => Or.inl rfl

theorem popWhile_eq_self_stop (p : Point) (s : List Point) (hs : popWhile p s = s) :
    ∀ b a r, s = b :: a :: r → 0 < orientation a b p := by
  intro b a r he
  subst he
  by_contra hc
  push_neg at hc
  rw [popWhile, if_pos hc] at hs
  have h1 := (popWhile_suffix p (a :: r)).length_le
  rw [hs] at h1
  simp at h1

theorem orientation_self_left (a c : Point) : orientation a a c = 0 := by
  unfold orientation
  ring

theorem orientation_cycle (a b c : Point) : orientation a b c = orientation b c a := by
  unfold orientation
  ring

theorem orientation_combo1 (g h p x : Point) :
    (h.1 - g.1) * orientation g p x =
      (p.1 - g.1) * orientation g h x - (x.1 - g.1) * orientation g h p := by
  unfold orientation
  ring

theorem orientation_combo2 (t s p x : Point) :
    (s.1 - t.1) * orientation s p x =
      (p.1 - s.1) * orientation t s x - (x.1 - s.1) * orientation t s p := by
  unfold orientation
  ring

theorem orientation_combo3 (t' t s p : Point) :
    (s.1 - t.1) * orientation t' t p =
      (t.1 - t'.1) * orientation t s p + (p.1 - t.1) * orientation t' t s := by
  unfold orientation
  ring

theorem ori_x3_eq_x1 {a b w : Point} (h : w.1 = a.1) :
    orientation a b w = (b.1 - a.1) * (w.2 - a.2) := by
  unfold orientation
  rw [h]
  ring

theorem ori_x3_eq_x2 {a b w : Point} (h : w.1 = b.1) :
    orientation a b w = (b.1 - a.1) * (w.2 - b.2) := by
  unfold orientation
  rw [h]
  ring

theorem ori_vert_base {a b w : Point} (h : b.1 = a.1) :
    orientation a b w = -((b.2 - a.2) * (w.1 - a.1)) := by
  unfold orientation
  rw [h]
  ring

theorem ori_all_same_x {a b c : Point} (h1 : a.1 = b.1) (h2 : a.1 = c.1) :
    orientation a b c = 0 := by
  unfold orientation
  rw [← h1, ← h2]
  ring

theorem vert_ori_nonpos {t s p : Point} (hx : t.1 = s.1) (hy : t.2 ≤ s.2) (hp : s.1 ≤ p.1) :
    orientation t s p ≤ 0 := by
  unfold orientation
  rw [hx]
  nlinarith [mul_nonneg (sub_nonneg.mpr hy) (sub_nonneg.mpr hp)]

theorem nonneg_of_mul {c X : ℚ} (hc : 0 < c) (h : 0 ≤ c * X) : 0 ≤ X := by
  by_contra hneg
  push_neg at hneg
  nlinarith

theorem pos_of_mul {c X : ℚ} (hc : 0 < c) (h : 0 < c * X) : 0 < X := by
  by_contra hneg
  push_neg at hneg
  nlinarith

theorem collinear_of_three (M B x y z : Point) (hMB : M ≠ B)
    (hx : orientation M B x = 0) (hy : orientation M B y = 0) (hz : orientation M B z = 0) :
    orientation x y z = 0 := by
  have id1 : (B.1 - M.1) * orientation x y z =
      (y.1 - x.1) * orientation M B z + (x.1 - z.1) * orientation M B y +
        (z.1 - y.1) * orientation M B x := by
    unfold orientation
    ring
  have id2 : (B.2 - M.2) * orientation x y z =
      (y.2 - x.2) * orientation M B z + (x.2 - z.2) * orientation M B y +
        (z.2 - y.2) * orientation M B x := by
    unfold orientation
    ring
  rw [hx, hy, hz] at id1 id2
  simp at id1 id2
  rcases id1 with h1 | h1
  · rcases id2 with h2 | h2
    · exact absurd (Prod.ext (by linarith) (by linarith)) hMB
    · exact h2
  · exact h1

theorem leftAll (p : Point) :
    ∀ (S : List Point), StackConvex S → S.Pairwise (fun a b => lexLe b a) →
      (∀ y ∈ S, lexLe y p) →
      (∀ s t r, S = s :: t :: r → 0 < orientation t s p) →
      ∀ s1 X Y s2, S = s1 ++ X :: Y :: s2 → 0 < orientation Y X p
  | [] => by
      intro _ _ _ _ s1 X Y s2 h
      rcases s1 with _ | ⟨w, s1⟩ <;> simp at h
  | [x] => by
      intro _ _ _ _ s1 X Y s2 h
      have hl := congrArg List.length h
      simp at hl
      omega
  | s :: t :: r => by
      intro hconv hpair hlex htop s1 X Y s2 hsplit
      cases s1 with
      | nil =>
          simp only [List.nil_append] at hsplit
          injection hsplit with h1 hsplit
          injection hsplit with h2 hsplit
          rw [← h1, ← h2]
          exact htop s t r rfl
      | cons w s1t =>
          injection hsplit with h1 hsplit
          subst h1
          have hstep : ∀ s' t' r', t :: r = s' :: t' :: r' → 0 < orientation t' s' p := by
            intro s' t' r' he
            injection he with he1 he2
            subst he1
            have hts : lexLe t s := (List.pairwise_cons.mp hpair).1 t (by simp)
            have htp : lexLe t p := hlex t (by simp)
            have hsp : lexLe s p := hlex s (by simp)
            have htt' : lexLe t' t :=
              (List.pairwise_cons.mp (List.pairwise_cons.mp hpair).2).1 t' (by rw [he2]; simp)
            have hconv3 : 0 < orientation t' t s := by
              refine hconv [] s t t' (r'.drop 0) ?_
              rw [he2]
              simp
            have htop2 : 0 < orientation t s p := htop s t r rfl
            have hid := orientation_combo3 t' t s p
            by_cases hvert : s.1 = t.1
            · exact absurd htop2 (not_lt.mpr (vert_ori_nonpos (hvert.symm)
                (by rcases hts with h | ⟨h1, h2⟩
                    · exact absurd h (by rw [hvert]; exact lt_irrefl _)
                    · exact h2) (lexLe_x hsp)))
            · have hcoef : 0 < s.1 - t.1 := by
                have := lexLe_x hts
                rcases lt_or_eq_of_le this with h | h
                · linarith
                · exact absurd h.symm hvert
              refine pos_of_mul hcoef ?_
              rw [hid]
              have ht1 : 0 ≤ t.1 - t'.1 := by
                have := lexLe_x htt'
                linarith
              have hp1 : 0 ≤ p.1 - t.1 := by
                have := lexLe_x htp
                linarith
              rcases lt_or_eq_of_le ht1 with h1 | h1
              · nlinarith
              · rcases lt_or_eq_of_le hp1 with h2 | h2
                · nlinarith
                · have hs1 : s.1 = t.1 := by
                    have := lexLe_x hsp
                    linarith
                  exact absurd hs1 hvert
          have hrec := leftAll p (t :: r) (StackConvex_suffix _ _ (List.suffix_cons s (t :: r)) hconv)
            (List.pairwise_cons.mp hpair).2
            (fun y hy => hlex y (by simp [hy])) hstep s1t X Y s2 hsplit
          exact hrec

theorem chainStack_head_eq (q : List Point) (h : q ≠ []) :
    (chainStack q).head? = q.getLast? := by
  rcases List.eq_nil_or_concat q with rfl | ⟨q₁, x, he⟩
  · exact absurd rfl h
  · rw [List.concat_eq_append] at he
    subst he
    rw [chainStack_top, List.getLast?_concat]

theorem sorted_le_of_getLast {q : List Point} (hq : q.Pairwise lexLe) {m x : Point}
    (hm : q.getLast? = some m) (hx : x ∈ q) : lexLe x m := by
  rcases List.eq_nil_or_concat q with rfl | ⟨q', y, he⟩
  · simp at hm
  · rw [List.concat_eq_append] at he
    subst he
    rw [List.getLast?_concat] at hm
    injection hm with hm
    subst hm
    exact sorted_le_last hq rfl hx

theorem sorted_head_le_of_head {q : List Point} (hq : q.Pairwise lexLe) {b x : Point}
    (hb : q.head? = some b) (hx : x ∈ q) : lexLe b x := by
  cases q with
  | nil => simp at hb
  | cons y t =>
      injection hb with hb
      subst hb
      exact sorted_head_le hq hx

theorem sorted_all_eq_opt {q : List Point} (hq : q.Pairwise lexLe) {v : Point}
    (h1 : q.head? = some v) (h2 : q.getLast? = some v) : ∀ x ∈ q, x = v := by
  intro x hx
  exact lexLe_antisymm (sorted_le_of_getLast hq h2 hx) (sorted_head_le_of_head hq h1 hx)

theorem stack_pairwise (q : List Point) (hsor : q.Pairwise lexLe) :
    (chainStack q).Pairwise (fun a b => lexLe b a) := by
  refine List.Pairwise.sublist (chainStack_sublist q) ?_
  rw [List.pairwise_reverse]
  exact hsor

theorem newEdge (p : Point) (q₀ : List Point) (x : Point)
    (hx : x ∈ q₀) (hsor : q₀.Pairwise lexLe) (hlex : ∀ y ∈ q₀, lexLe y p)
    (hcont : ∀ y ∈ q₀, ∀ u a b v, (chainStack q₀).reverse = u ++ a :: b :: v →
      0 ≤ orientation a b y)
    (b₀ : Point) (r : List Point) (hT : popWhile p (chainStack q₀) = b₀ :: r) :
    0 ≤ orientation b₀ p x := by
  have hq₀ne : q₀ ≠ [] := List.ne_nil_of_mem hx
  have hSne : chainStack q₀ ≠ [] := chainStack_ne_nil _ hq₀ne
  have hconv : StackConvex (chainStack q₀) := chainStack_convex q₀
  have hpairS : (chainStack q₀).Pairwise (fun a b => lexLe b a) := stack_pairwise q₀ hsor
  have hsufT : List.IsSuffix (b₀ :: r) (chainStack q₀) := by
    have h := popWhile_suffix p (chainStack q₀)
    rw [hT] at h
    exact h
  obtain ⟨w₂, hw₂⟩ := hsufT
  have hb₀q : b₀ ∈ q₀ := chainStack_subset _ _ (by rw [← hw₂]; simp)
  have hb₀p : lexLe b₀ p := hlex b₀ hb₀q
  have hxp : lexLe x p := hlex x hx
  by_cases hxlt : x.1 < b₀.1
  · cases r with
    | nil =>
        have hq₀head : q₀.head? = some b₀ := by
          rw [← chainStack_bottom q₀ hq₀ne, ← hw₂]
          simp
        have hb₀x : lexLe b₀ x := sorted_head_le_of_head hsor hq₀head hx
        exact absurd (lexLe_x hb₀x) (not_le.mpr hxlt)
    | cons b₁ r'' =>
        have hstop : 0 < orientation b₁ b₀ p := popWhile_stop p _ b₀ b₁ r'' hT
        have hold : 0 ≤ orientation b₁ b₀ x := by
          refine hcont x hx r''.reverse b₁ b₀ w₂.reverse ?_
          rw [← hw₂]
          simp
        have hb₁b₀ : lexLe b₁ b₀ := by
          have hp2 : (b₀ :: b₁ :: r'').Pairwise (fun a b => lexLe b a) :=
            List.Pairwise.sublist (by rw [← hw₂]; exact (List.suffix_append w₂ _).sublist) hpairS
          exact (List.pairwise_cons.mp hp2).1 b₁ (by simp)
        by_cases hv : b₁.1 = b₀.1
        · have hy : b₁.2 ≤ b₀.2 := by
            rcases hb₁b₀ with h | ⟨h1, h2⟩
            · exact absurd h (by rw [hv]; exact lt_irrefl _)
            · exact h2
          exact absurd hstop (not_lt.mpr (vert_ori_nonpos hv hy (lexLe_x hb₀p)))
        · have hcoef : 0 < b₀.1 - b₁.1 := by
            have := lexLe_x hb₁b₀
            rcases lt_or_eq_of_le this with h | h
            · linarith
            · exact absurd h hv
          refine nonneg_of_mul hcoef ?_
          rw [orientation_combo2 b₁ b₀ p x]
          have h1 : 0 ≤ p.1 - b₀.1 := by
            have := lexLe_x hb₀p
            linarith
          nlinarith
  · push_neg at hxlt
    rcases popWhile_spec p (chainStack q₀) with hA | ⟨h, b₀', r', heq, hsuf, hpop⟩
    · have hT' : chainStack q₀ = b₀ :: r := by rw [← hA, hT]
      have hq₀last : q₀.getLast? = some b₀ := by
        rw [← chainStack_head_eq q₀ hq₀ne, hT']
        rfl
      have hxb₀ : lexLe x b₀ := sorted_le_of_getLast hsor hq₀last hx
      have hx1 : x.1 = b₀.1 := le_antisymm (lexLe_x hxb₀) hxlt
      have hx2 : x.2 ≤ b₀.2 := by
        rcases hxb₀ with h | ⟨h1, h2⟩
        · exact absurd h (by rw [hx1]; exact lt_irrefl _)
        · exact h2
      cases r with
      | nil =>
          have hq₀head : q₀.head? = some b₀ := by
            rw [← chainStack_bottom q₀ hq₀ne, hT']
            rfl
          have hxb : x = b₀ := sorted_all_eq_opt hsor hq₀head hq₀last x hx
          rw [hxb]
          exact le_of_eq (orientation_self_mid b₀ p).symm
      | cons b₁ r'' =>
          have hstop : 0 < orientation b₁ b₀ p := popWhile_stop p _ b₀ b₁ r'' hT
          have hold : 0 ≤ orientation b₁ b₀ x := by
            refine hcont x hx r''.reverse b₁ b₀ w₂.reverse ?_
            rw [← hw₂]
            simp
          have hb₁b₀ : lexLe b₁ b₀ := by
            have hp2 : (b₀ :: b₁ :: r'').Pairwise (fun a b => lexLe b a) :=
              List.Pairwise.sublist (by rw [← hw₂]; exact (List.suffix_append w₂ _).sublist) hpairS
            exact (List.pairwise_cons.mp hp2).1 b₁ (by simp)
          by_cases hv : b₁.1 = b₀.1
          · have hy : b₁.2 ≤ b₀.2 := by
              rcases hb₁b₀ with h | ⟨h1, h2⟩
              · exact absurd h (by rw [hv]; exact lt_irrefl _)
              · exact h2
            exact absurd hstop (not_lt.mpr (vert_ori_nonpos hv hy (lexLe_x hb₀p)))
          · have hcoef : 0 < b₀.1 - b₁.1 := by
              have := lexLe_x hb₁b₀
              rcases lt_or_eq_of_le this with h | h
              · linarith
              · exact absurd h hv
            have hold2 : orientation b₁ b₀ x = (b₀.1 - b₁.1) * (x.2 - b₀.2) :=
              ori_x3_eq_x2 hx1
            have hx2' : b₀.2 ≤ x.2 := by
              rw [hold2] at hold
              nlinarith
            have hxb : x = b₀ := Prod.ext hx1 (le_antisymm hx2 hx2')
            rw [hxb]
            exact le_of_eq (orientation_self_mid b₀ p).symm
    · rw [hT] at heq
      injection heq with he1 he2
      subst he1
      subst he2
      obtain ⟨w₃, hw₃⟩ := hsuf
      have hold_bh : 0 ≤ orientation b₀ h x := by
        refine hcont x hx r.reverse b₀ h (w₃.reverse) ?_
        rw [← hw₃]
        simp
      have hb₀h : lexLe b₀ h := by
        have hp2 : (h :: b₀ :: r).Pairwise (fun a b => lexLe b a) :=
          List.Pairwise.sublist (by rw [← hw₃]; exact (List.suffix_append w₃ _).sublist) hpairS
        exact (List.pairwise_cons.mp hp2).1 b₀ (by simp)
      by_cases hv : h.1 = b₀.1
      · by_cases hdup : h = b₀
        · subst hdup
          cases r with
          | cons r₀ r'' =>
              have htri : 0 < orientation r₀ h h := by
                refine hconv w₃ h h r₀ r'' ?_
                rw [← hw₃]
              exact absurd htri (by rw [orientation_self_right]; exact lt_irrefl 0)
          | nil =>
              rcases List.eq_nil_or_concat w₃ with rfl | ⟨w', e, hew⟩
              · have hS : chainStack q₀ = [h, h] := by rw [← hw₃]; rfl
                have hq₀head : q₀.head? = some h := by
                  rw [← chainStack_bottom q₀ hq₀ne, hS]
                  rfl
                have hq₀last : q₀.getLast? = some h := by
                  rw [← chainStack_head_eq q₀ hq₀ne, hS]
                  rfl
                have hxb : x = h := sorted_all_eq_opt hsor hq₀head hq₀last x hx
                rw [hxb]
                exact le_of_eq (orientation_self_mid h p).symm
              · rw [List.concat_eq_append] at hew
                subst hew
                have htri : 0 < orientation h h e := by
                  refine hconv w' e h h [] ?_
                  rw [← hw₃]
                  simp
                exact absurd htri (by rw [orientation_self_left]; exact lt_irrefl 0)
        · have hy : b₀.2 < h.2 := by
            rcases hb₀h with hc | ⟨h1, h2⟩
            · exact absurd hc (by rw [hv]; exact lt_irrefl _)
            · rcases lt_or_eq_of_le h2 with hc | hc
              · exact hc
              · exact absurd (Prod.ext hv.symm hc).symm hdup
          have hx1 : x.1 = b₀.1 := by
            have he := ori_vert_base (a := b₀) (b := h) (w := x) hv
            rw [he] at hold_bh
            nlinarith
          have hx2 : b₀.2 ≤ x.2 := by
            cases r with
            | nil =>
                have hq₀head : q₀.head? = some b₀ := by
                  rw [← chainStack_bottom q₀ hq₀ne, ← hw₃]
                  simp
                have hb₀x : lexLe b₀ x := sorted_head_le_of_head hsor hq₀head hx
                rcases hb₀x with hc | ⟨h1, h2⟩
                · exact absurd hc (by rw [hx1]; exact lt_irrefl _)
                · exact h2
            | cons r₀ r'' =>
                have htri : 0 < orientation r₀ b₀ h := by
                  refine hconv w₃ h b₀ r₀ r'' ?_
                  rw [← hw₃]
                have htri2 : orientation r₀ b₀ h = (b₀.1 - r₀.1) * (h.2 - b₀.2) :=
                  ori_x3_eq_x2 hv
                have hr₀ : 0 < b₀.1 - r₀.1 := by
                  rw [htri2] at htri
                  nlinarith
                have holde : 0 ≤ orientation r₀ b₀ x := by
                  refine hcont x hx r''.reverse r₀ b₀ (h :: w₃.reverse) ?_
                  rw [← hw₃]
                  simp
                have holde2 : orientation r₀ b₀ x = (b₀.1 - r₀.1) * (x.2 - b₀.2) :=
                  ori_x3_eq_x2 hx1
                rw [holde2] at holde
                nlinarith
          have hgoal : orientation b₀ p x = (p.1 - b₀.1) * (x.2 - b₀.2) :=
            ori_x3_eq_x1 hx1
          rw [hgoal]
          have h1 : 0 ≤ p.1 - b₀.1 := by
            have := lexLe_x hb₀p
            linarith
          exact mul_nonneg h1 (by linarith)
      · have hcoef : 0 < h.1 - b₀.1 := by
          have := lexLe_x hb₀h
          rcases lt_or_eq_of_le this with hc | hc
          · linarith
          · exact absurd hc.symm hv
        refine nonneg_of_mul hcoef ?_
        rw [orientation_combo1 b₀ h p x]
        have h1 : 0 ≤ p.1 - b₀.1 := by
          have := lexLe_x hb₀p
          linarith
        nlinarith

theorem snoc_split {α : Type} (l : List α) (p : α) (u : List α) (a b : α) (v : List α)
    (h : l ++ [p] = u ++ a :: b :: v) :
    (v = [] ∧ b = p ∧ l = u ++ [a]) ∨ ∃ v', v = v' ++ [p] ∧ l = u ++ a :: b :: v' := by
  rcases List.eq_nil_or_concat v with rfl | ⟨v', y, he⟩
  · have h2 : l ++ [p] = (u ++ [a]) ++ [b] := by
      rw [h]
      simp
    rcases List.append_inj' h2 rfl with ⟨h3, h4⟩
    injection h4 with h5
    exact Or.inl ⟨rfl, h5.symm, h3⟩
  · rw [List.concat_eq_append] at he
    subst he
    have h2 : l ++ [p] = (u ++ a :: b :: v') ++ [y] := by
      rw [h]
      simp
    rcases List.append_inj' h2 rfl with ⟨h3, h4⟩
    injection h4 with h5
    exact Or.inr ⟨v', by rw [h5], h3⟩

theorem chain_contain : ∀ (q : List Point), q.Pairwise lexLe → ∀ x ∈ q,
    ∀ u a b v, (chainStack q).reverse = u ++ a :: b :: v → 0 ≤ orientation a b x := by
  intro q
  induction q using List.reverseRecOn with
  | nil =>
      intro _ x hx
      simp at hx
  | append_singleton q₀ p ih =>
      intro hsor x hx u a b v hsplit
      have hsor₀ : q₀.Pairwise lexLe := (List.pairwise_append.mp hsor).1
      have hlex : ∀ y ∈ q₀, lexLe y p :=
        fun y hy => (List.pairwise_append.mp hsor).2.2 y hy p (by simp)
      rw [chainStack_append, List.reverse_cons] at hsplit
      rcases snoc_split _ _ _ _ _ _ hsplit with ⟨rfl, hbp, hnew⟩ | ⟨v', rfl, hold⟩
      · -- the new edge ending in p itself
        rw [hbp]
        have hT : popWhile p (chainStack q₀) = a :: u.reverse := by
          rw [← List.reverse_reverse (popWhile p (chainStack q₀)), hnew]
          simp
        rcases List.mem_append.mp hx with hx₀ | hx₀
        · exact newEdge p q₀ x hx₀ hsor₀ hlex (fun y hy => ih hsor₀ y hy) a u.reverse hT
        · rw [List.mem_singleton.mp hx₀]
          exact le_of_eq (orientation_self_right a p).symm
      · -- an edge carried over from the old chain
        have hsufT : List.IsSuffix (popWhile p (chainStack q₀)) (chainStack q₀) :=
          popWhile_suffix p _
        obtain ⟨w, hw⟩ := hsufT
        have hsplit₀ : (chainStack q₀).reverse = u ++ a :: b :: (v' ++ w.reverse) := by
          rw [← hw]
          simp only [List.reverse_append]
          rw [hold]
          simp
        rcases List.mem_append.mp hx with hx₀ | hx₀
        · exact ih hsor₀ x hx₀ u a b (v' ++ w.reverse) hsplit₀
        · -- x = p: the kept old edges all see p strictly on the left
          rw [List.mem_singleton.mp hx₀]
          have hq₀ne : q₀ ≠ [] := by
            intro he
            subst he
            simp [chainStack, popWhile] at hold
          have hTconv : StackConvex (popWhile p (chainStack q₀)) :=
            StackConvex_suffix _ _ (popWhile_suffix p _) (chainStack_convex q₀)
          have hTpair : (popWhile p (chainStack q₀)).Pairwise (fun c d => lexLe d c) :=
            List.Pairwise.sublist (popWhile_suffix p _).sublist (stack_pairwise q₀ hsor₀)
          have hTlex : ∀ y ∈ popWhile p (chainStack q₀), lexLe y p := by
            intro y hy
            exact hlex y (chainStack_subset _ _ ((popWhile_suffix p _).subset hy))
          have hTtop : ∀ s t r, popWhile p (chainStack q₀) = s :: t :: r →
              0 < orientation t s p := by
            intro s t r he
            exact popWhile_stop p _ s t r he
          have hTsplit : popWhile p (chainStack q₀) = v'.reverse ++ b :: a :: u.reverse := by
            rw [← List.reverse_reverse (popWhile p (chainStack q₀)), hold]
            simp
          exact le_of_lt (leftAll p _ hTconv hTpair hTlex hTtop v'.reverse b a u.reverse hTsplit)

theorem seam (q : List Point) (hsor : q.Pairwise lexLe)
    (u : List Point) (A M : Point) (hc : (chainStack q).reverse = u ++ [A, M])
    (B : Point) (rest : List Point)
    (hd : (chainStack q.reverse).reverse = M :: B :: rest)
    (h5 : 1 ≤ u.length + rest.length) :
    orientation A M B ≠ 0 := by
  intro h0
  have hqne : q ≠ [] := by
    intro he
    subst he
    simp [chainStack] at hc
  have hqrne : q.reverse ≠ [] := by simp [hqne]
  have hqlast : q.getLast? = some M := by
    rw [← chainStack_head_eq q hqne, ← List.getLast?_reverse (chainStack q), hc,
      show u ++ [A, M] = (u ++ [A]) ++ [M] by simp, List.getLast?_concat]
  have hsorR : (q.reverse.map negP).Pairwise lexLe := pairwise_neg_reverse hsor
  have hAq : A ∈ q := by
    refine chainStack_subset q A (List.mem_reverse.mp ?_)
    rw [hc]
    simp
  have hMq : M ∈ q := by
    refine chainStack_subset q M (List.mem_reverse.mp ?_)
    rw [hc]
    simp
  have hBq : B ∈ q := by
    have h1 : B ∈ chainStack q.reverse := by
      refine List.mem_reverse.mp ?_
      rw [hd]
      simp
    have h2 := chainStack_subset q.reverse B h1
    exact List.mem_reverse.mp h2
  have hAM : lexLe A M := sorted_le_of_getLast hsor hqlast hAq
  have hBM : lexLe B M := sorted_le_of_getLast hsor hqlast hBq
  have hcontAM : ∀ y ∈ q, 0 ≤ orientation A M y := by
    intro y hy
    exact chain_contain q hsor y hy u A M [] hc
  cases rest with
  | cons C rest' =>
      have htriD : 0 < orientation M B C :=
        chainReverse_triples q.reverse [] rest' M B C hd
      have hCq : C ∈ q := by
        have h1 : C ∈ chainStack q.reverse := by
          refine List.mem_reverse.mp ?_
          rw [hd]
          simp
        exact List.mem_reverse.mp (chainStack_subset q.reverse C h1)
      have hCM : lexLe C M := sorted_le_of_getLast hsor hqlast hCq
      by_cases hvA : A.1 = M.1
      · by_cases hAMeq : A = M
        · subst hAMeq
          rcases List.eq_nil_or_concat u with rfl | ⟨u', E, hu⟩
          · -- the whole lower chain is [A, A]: the input is a single repeated point
            have hq0head : q.head? = some A := by
              rw [← chainStack_bottom q hqne, ← List.head?_reverse (chainStack q), hc]
              rfl
            have hall : ∀ x ∈ q, x = A := sorted_all_eq_opt hsor hq0head hqlast
            have hallR : ∀ x ∈ q.reverse, x = A := fun x hx =>
              hall x (List.mem_reverse.mp hx)
            have hlen : (chainStack q.reverse).length = rest'.length + 3 := by
              have := congrArg List.length hd
              simp at this
              omega
            rcases chainStack_const A q.reverse hallR with hcc | hcc | hcc <;>
              rw [hcc] at hlen <;> simp at hlen
          · rw [List.concat_eq_append] at hu
            subst hu
            have htriC : 0 < orientation E A A := by
              refine chainReverse_triples q u' [] E A A ?_
              rw [hc]
              simp
            rw [orientation_self_right] at htriC
            exact absurd htriC (lt_irrefl 0)
        · have hA2 : A.2 < M.2 := by
            rcases hAM with hcase | ⟨h1, h2⟩
            · exact absurd hcase (by rw [hvA]; exact lt_irrefl _)
            · rcases lt_or_eq_of_le h2 with hcase | hcase
              · exact hcase
              · exact absurd (Prod.ext hvA hcase) hAMeq
          have hB1 : B.1 = M.1 := by
            have he := ori_vert_base (a := A) (b := M) (w := B) hvA.symm
            rw [he] at h0
            have h1 : B.1 = A.1 := by nlinarith
            rw [h1, hvA]
          have hBMne : B ≠ M := by
            intro he
            subst he
            rw [orientation_self_left] at htriD
            exact absurd htriD (lt_irrefl 0)
          have hB2 : B.2 < M.2 := by
            rcases hBM with hcase | ⟨h1, h2⟩
            · exact absurd hcase (by rw [hB1]; exact lt_irrefl _)
            · rcases lt_or_eq_of_le h2 with hcase | hcase
              · exact hcase
              · exact absurd (Prod.ext hB1 hcase) hBMne
          have he := ori_vert_base (a := M) (b := B) (w := C) hB1
          rw [he] at htriD
          have hC1 : M.1 < C.1 := by nlinarith
          exact absurd (lexLe_x hCM) (not_le.mpr hC1)
      · have hA1 : A.1 < M.1 := by
          rcases lt_or_eq_of_le (lexLe_x hAM) with hcase | hcase
          · exact hcase
          · exact absurd hcase hvA
        have hid := orientation_combo2 A M B C
        rw [h0] at hid
        have hAMC : 0 ≤ orientation A M C := hcontAM C hCq
        have hB1 : B.1 - M.1 ≤ 0 := by
          have := lexLe_x hBM
          linarith
        nlinarith
  | nil =>
      have hune : u ≠ [] := by
        intro he
        subst he
        simp at h5
      rcases List.eq_nil_or_concat u with rfl | ⟨u', E, hu⟩
      · exact absurd rfl hune
      rw [List.concat_eq_append] at hu
      subst hu
      have htriC : 0 < orientation E A M := by
        refine chainReverse_triples q u' [] E A M ?_
        rw [hc]
        simp
      have hEq : E ∈ q := by
        refine chainStack_subset q E (List.mem_reverse.mp ?_)
        rw [hc]
        simp
      have hqhead : q.head? = some B := by
        rw [← List.getLast?_reverse q, ← chainStack_head_eq q.reverse hqrne,
          ← List.getLast?_reverse (chainStack q.reverse), hd]
        rfl
      have hstackR : chainStack q.reverse = [B, M] := by
        rw [← List.reverse_reverse (chainStack q.reverse), hd]
        rfl
      have hmirror : (chainStack (q.reverse.map negP)).reverse = [negP M, negP B] := by
        rw [chainStack_negP, hstackR]
        rfl
      have hMB_all : ∀ y ∈ q, 0 ≤ orientation M B y := by
        intro y hy
        have hyQ : negP y ∈ q.reverse.map negP :=
          List.mem_map_of_mem negP (List.mem_reverse.mpr hy)
        have h1 := chain_contain (q.reverse.map negP) hsorR (negP y) hyQ
          [] (negP M) (negP B) [] hmirror
        rw [orientation_negP] at h1
        exact h1
      by_cases hvA : A.1 = M.1
      · by_cases hAMeq : A = M
        · subst hAMeq
          rw [orientation_self_right] at htriC
          exact absurd htriC (lt_irrefl 0)
        · have hA2 : A.2 < M.2 := by
            rcases hAM with hcase | ⟨h1, h2⟩
            · exact absurd hcase (by rw [hvA]; exact lt_irrefl _)
            · rcases lt_or_eq_of_le h2 with hcase | hcase
              · exact hcase
              · exact absurd (Prod.ext hvA hcase) hAMeq
          have hB1 : B.1 = M.1 := by
            have he := ori_vert_base (a := A) (b := M) (w := B) hvA.symm
            rw [he] at h0
            have h1 : B.1 = A.1 := by nlinarith
            rw [h1, hvA]
          have hallx : ∀ x ∈ q, x.1 = M.1 := by
            intro x hx
            have h1 := lexLe_x (sorted_head_le_of_head hsor hqhead hx)
            have h2 := lexLe_x (sorted_le_of_getLast hsor hqlast hx)
            rw [hB1] at h1
            linarith
          have hEA : E.1 = A.1 := by rw [hallx E hEq, hallx A hAq]
          have hEM : E.1 = M.1 := hallx E hEq
          rw [ori_all_same_x hEA hEM] at htriC
          exact absurd htriC (lt_irrefl 0)
      · have hA1 : A.1 < M.1 := by
          rcases lt_or_eq_of_le (lexLe_x hAM) with hcase | hcase
          · exact hcase
          · exact absurd hcase hvA
        have hMBzero : ∀ y ∈ q, orientation M B y = 0 := by
          intro y hy
          have hid := orientation_combo2 A M B y
          rw [h0] at hid
          have hAMy : 0 ≤ orientation A M y := hcontAM y hy
          have hB1 : B.1 - M.1 ≤ 0 := by
            have := lexLe_x hBM
            linarith
          have hle : orientation M B y ≤ 0 := by nlinarith
          exact le_antisymm hle (hMB_all y hy)
        have hMBne : M ≠ B := by
          intro he
          have hallq : ∀ x ∈ q, x = M :=
            sorted_all_eq_opt hsor (by rw [hqhead, he]) hqlast
          have hEM : E = M := hallq E hEq
          have hAM' : A = M := hallq A hAq
          rw [hEM, hAM', orientation_self_right] at htriC
          exact absurd htriC (lt_irrefl 0)
        have hcoll := collinear_of_three M B E A M hMBne
          (hMBzero E hEq) (hMBzero A hAq) (orientation_self_mid M B)
        rw [hcoll] at htriC
        exact absurd htriC (lt_irrefl 0)

theorem exists_three_split : ∀ (l : List Point) (j : ℕ), j + 3 ≤ l.length →
    ∃ u v, l = u ++ l.getD j (0, 0) :: l.getD (j + 1) (0, 0) :: l.getD (j + 2) (0, 0) :: v
  | [], 0, h => absurd h (by simp)
  | [a], 0, h => absurd h (by simp)
  | [a, b], 0, h => absurd h (by simp)
  | a :: b :: c :: t, 0, _ => ⟨[], t, by simp⟩
  | [], j + 1, h => absurd h (by simp)
  | a :: t, j + 1, h => by
      obtain ⟨u, v, he⟩ := exists_three_split t j (by simp at h; omega)
      refine ⟨a :: u, v, ?_⟩
      simp only [List.getD_cons_succ, List.cons_append]
      exact congrArg (List.cons a) he

theorem exists_last_two (l : List Point) (h : 2 ≤ l.length) :
    ∃ u, l = u ++ [l.getD (l.length - 2) (0, 0), l.getD (l.length - 1) (0, 0)] ∧
      u.length = l.length - 2 := by
  rcases List.eq_nil_or_concat l with rfl | ⟨l₀, m, he⟩
  · simp at h
  rw [List.concat_eq_append] at he
  subst he
  rcases List.eq_nil_or_concat l₀ with rfl | ⟨l₁, a, he⟩
  · simp at h
  rw [List.concat_eq_append] at he
  subst he
  have hlen : (l₁ ++ [a] ++ [m]).length = l₁.length + 2 := by simp
  refine ⟨l₁, ?_, by simp⟩
  rw [hlen]
  have h1 : l₁.length + 2 - 2 = l₁.length := by omega
  have h2 : l₁.length + 2 - 1 = l₁.length + 1 := by omega
  rw [h1, h2]
  have hg1 : (l₁ ++ [a] ++ [m]).getD l₁.length (0, 0) = a := by
    rw [List.append_assoc, List.getD_append_right _ _ _ _ (le_refl _)]
    simp
  have hg2 : (l₁ ++ [a] ++ [m]).getD (l₁.length + 1) (0, 0) = m := by
    rw [List.append_assoc, List.getD_append_right _ _ _ _ (by omega)]
    simp
  rw [hg1, hg2]
  simp

theorem getD_zero_head (l : List Point) (x : Point) (h : l.head? = some x) :
    l.getD 0 (0, 0) = x := by
  cases l with
  | nil => simp at h
  | cons y t =>
      simp only [List.head?_cons, Option.some.injEq] at h
      simp only [List.getD_cons_zero]
      exact h

theorem getD_last (l : List Point) (x : Point) (h : l.getLast? = some x) :
    l.getD (l.length - 1) (0, 0) = x := by
  rcases List.eq_nil_or_concat l with rfl | ⟨l₀, m, he⟩
  · simp at h
  · rw [List.concat_eq_append] at he
    subst he
    rw [List.getLast?_concat] at h
    injection h with h
    subst h
    have hlen : (l₀ ++ [m]).length - 1 = l₀.length := by simp
    rw [hlen, List.getD_append_right _ _ _ _ (le_refl _)]
    simp



theorem hull_triples (q : List Point) (hsor : q.Pairwise lexLe) (hq2 : 2 ≤ q.length) :
    noCollinearCyclicTriples
      ((chainStack q).reverse.dropLast ++ (chainStack q.reverse).reverse.dropLast) := by
  intro h3 i hi
  rw [List.mem_range] at hi
  set L : List Point := (chainStack q).reverse with hL
  set U : List Point := (chainStack q.reverse).reverse with hU
  set H : List Point := L.dropLast ++ U.dropLast with hH
  have hqne : q ≠ [] := by
    intro he
    have := congrArg List.length he
    rw [List.length_nil] at this
    omega
  have hqrne : q.reverse ≠ [] := by simp [hqne]
  have hK : 2 ≤ L.length := by
    rw [hL, List.length_reverse]
    exact chainStack_length_two q hq2
  have hJ : 2 ≤ U.length := by
    rw [hU, List.length_reverse]
    exact chainStack_length_two q.reverse (by rw [List.length_reverse]; exact hq2)
  have hHlen : H.length = (L.length - 1) + (U.length - 1) := by
    rw [hH, List.length_append, List.length_dropLast, List.length_dropLast]
  obtain ⟨lu, hLdec, hlulen⟩ := exists_last_two L hK
  obtain ⟨uu, hUdec, huulen⟩ := exists_last_two U hJ
  set A : Point := L.getD (L.length - 2) (0, 0) with hA
  set M : Point := L.getD (L.length - 1) (0, 0) with hM
  set Bu : Point := U.getD (U.length - 2) (0, 0) with hBu
  set Mu : Point := U.getD (U.length - 1) (0, 0) with hMu
  have hLdrop : L.dropLast = lu ++ [A] := by
    rw [hLdec, show lu ++ [A, M] = (lu ++ [A]) ++ [M] by simp, List.dropLast_concat]
  have hUdrop : U.dropLast = uu ++ [Bu] := by
    rw [hUdec, show uu ++ [Bu, Mu] = (uu ++ [Bu]) ++ [Mu] by simp, List.dropLast_concat]
  have hgetL : ∀ j, j < L.length - 1 → H.getD j (0, 0) = L.getD j (0, 0) := by
    intro j hj
    have h1 : H.getD j (0, 0) = L.dropLast.getD j (0, 0) := by
      rw [hH]
      exact List.getD_append L.dropLast U.dropLast (0, 0) j
        (by rw [List.length_dropLast]; omega)
    have h2 : L.getD j (0, 0) = (lu ++ [A]).getD j (0, 0) := by
      rw [hLdec, show lu ++ [A, M] = (lu ++ [A]) ++ [M] by simp]
      exact List.getD_append (lu ++ [A]) [M] (0, 0) j
        (by simp only [List.length_append, List.length_singleton]; omega)
    rw [h1, h2, hLdrop]
  have hgetU : ∀ j, j < U.length - 1 →
      H.getD (L.length - 1 + j) (0, 0) = U.getD j (0, 0) := by
    intro j hj
    have h1 : H.getD (L.length - 1 + j) (0, 0) = U.dropLast.getD j (0, 0) := by
      rw [hH]
      rw [List.getD_append_right L.dropLast U.dropLast (0, 0) (L.length - 1 + j)
        (by rw [List.length_dropLast]; omega)]
      congr 1
      rw [List.length_dropLast]
      omega
    have h2 : U.getD j (0, 0) = (uu ++ [Bu]).getD j (0, 0) := by
      rw [hUdec, show uu ++ [Bu, Mu] = (uu ++ [Bu]) ++ [Mu] by simp]
      exact List.getD_append (uu ++ [Bu]) [Mu] (0, 0) j
        (by simp only [List.length_append, List.length_singleton]; omega)
    rw [h1, h2, hUdrop]
  -- shared value identities across the two chain seams
  have hLlast : L.getLast? = some M := by
    rw [hLdec, show lu ++ [A, M] = (lu ++ [A]) ++ [M] by simp]
    exact List.getLast?_concat _
  have hqlastM : q.getLast? = some M := by
    rw [← chainStack_head_eq q hqne, ← List.getLast?_reverse (chainStack q), ← hL]
    exact hLlast
  have hUhead : U.head? = q.getLast? := by
    rw [hU, List.head?_reverse]
    exact chainStack_bottom q.reverse hqrne |>.trans (List.head?_reverse q)
  have hU0 : U.getD 0 (0, 0) = M := getD_zero_head U M (by rw [hUhead]; exact hqlastM)
  obtain ⟨h0, t0, hq0⟩ := List.exists_cons_of_ne_nil hqne
  have hLhead : L.head? = q.head? := by
    rw [hL, List.head?_reverse]
    exact chainStack_bottom q hqne
  have hUlast : U.getLast? = q.head? := by
    rw [hU, List.getLast?_reverse]
    exact (chainStack_head_eq q.reverse hqrne).trans (List.getLast?_reverse q)
  have hL0 : L.getD 0 (0, 0) = h0 := getD_zero_head L h0 (by rw [hLhead, hq0]; rfl)
  have hUJval : Mu = h0 := by
    rw [hMu]
    exact getD_last U h0 (by rw [hUlast, hq0]; rfl)
  -- explicit two-element decompositions of the chain fronts
  have hUne : U ≠ [] := by
    intro he
    have := congrArg List.length he
    rw [List.length_nil] at this
    omega
  obtain ⟨u0', U', hUc⟩ := List.exists_cons_of_ne_nil hUne
  have hU'ne : U' ≠ [] := by
    intro he
    rw [he] at hUc
    have := congrArg List.length hUc
    simp at this
    omega
  obtain ⟨u1', ut, hUc2⟩ := List.exists_cons_of_ne_nil hU'ne
  have hUcc : U = u0' :: u1' :: ut := by rw [hUc, hUc2]
  have hu0val : u0' = M := by
    have h := hU0
    rw [hUcc] at h
    exact h
  have hu1val : U.getD 1 (0, 0) = u1' := by
    rw [hUcc]
    simp only [List.getD_cons_succ, List.getD_cons_zero]
  have hutlen : ut.length = U.length - 2 := by
    have := congrArg List.length hUcc
    simp at this
    omega
  have hLne : L ≠ [] := by
    intro he
    have := congrArg List.length he
    rw [List.length_nil] at this
    omega
  obtain ⟨l0', L', hLc⟩ := List.exists_cons_of_ne_nil hLne
  have hL'ne : L' ≠ [] := by
    intro he
    rw [he] at hLc
    have := congrArg List.length hLc
    simp at this
    omega
  obtain ⟨l1', lt, hLc2⟩ := List.exists_cons_of_ne_nil hL'ne
  have hLcc : L = l0' :: l1' :: lt := by rw [hLc, hLc2]
  have hl0val : l0' = h0 := by
    have h := hL0
    rw [hLcc] at h
    exact h
  have hl1val : L.getD 1 (0, 0) = l1' := by
    rw [hLcc]
    simp only [List.getD_cons_succ, List.getD_cons_zero]
  have hltlen : lt.length = L.length - 2 := by
    have := congrArg List.length hLcc
    simp at this
    omega
  by_cases hc1 : i + 2 < L.length - 1
  · -- fully inside the lower chain
    rw [Nat.mod_eq_of_lt (by omega), Nat.mod_eq_of_lt (by omega),
      hgetL i (by omega), hgetL (i + 1) (by omega), hgetL (i + 2) (by omega)]
    obtain ⟨u3, v3, hsp⟩ := exists_three_split L i (by omega)
    exact ne_of_gt (chainReverse_triples q u3 v3 _ _ _ (by rw [← hL]; exact hsp))
  by_cases hc2 : i + 2 = L.length - 1
  · -- triple ending at the point shared by the two chains (pmax side, inside L)
    rw [Nat.mod_eq_of_lt (by omega), Nat.mod_eq_of_lt (by omega),
      hgetL i (by omega), hgetL (i + 1) (by omega)]
    have hv2 : H.getD (i + 2) (0, 0) = L.getD (i + 2) (0, 0) := by
      have h1 := hgetU 0 (by omega)
      rw [Nat.add_zero] at h1
      have h2 : H.getD (i + 2) (0, 0) = H.getD (L.length - 1) (0, 0) := by
        congr 1 <;> omega
      rw [h2, h1, hU0, hM]
      congr 1 <;> omega
    rw [hv2]
    obtain ⟨u3, v3, hsp⟩ := exists_three_split L i (by omega)
    exact ne_of_gt (chainReverse_triples q u3 v3 _ _ _ (by rw [← hL]; exact hsp))
  by_cases hc3 : i + 1 = L.length - 1
  · -- the pmax seam triple: last lower edge against the first upper vertex
    rw [Nat.mod_eq_of_lt (by omega)]
    have hv0 : H.getD i (0, 0) = A := by
      rw [hgetL i (by omega), hA]
      congr 1 <;> omega
    have hv1 : H.getD (i + 1) (0, 0) = M := by
      have h1 := hgetU 0 (by omega)
      rw [Nat.add_zero] at h1
      have h2 : H.getD (i + 1) (0, 0) = H.getD (L.length - 1) (0, 0) := by
        congr 1 <;> omega
      rw [h2, h1, hU0]
    have hv2 : H.getD ((i + 2) % H.length) (0, 0) = u1' := by
      by_cases hKN : i + 2 < H.length
      · rw [Nat.mod_eq_of_lt hKN]
        have h1 := hgetU 1 (by omega)
        have h2 : H.getD (i + 2) (0, 0) = H.getD (L.length - 1 + 1) (0, 0) := by
          congr 1 <;> omega
        rw [h2, h1, hu1val]
      · have hi2 : (i + 2) % H.length = 0 := by
          have he : i + 2 = H.length := by omega
          rw [he, Nat.mod_self]
        rw [hi2, hgetL 0 (by omega), hL0, ← hUJval, hMu, ← hu1val]
        congr 1 <;> omega
    rw [hv0, hv1, hv2]
    refine seam q hsor lu A M (by rw [← hL]; exact hLdec) u1' ut ?_ ?_
    · rw [← hu0val, ← hU, hUcc]
    · omega
  by_cases hc6 : i + 1 = H.length
  · -- the pmin seam triple, via the point-negation mirror of the input
    have hi1 : (i + 1) % H.length = 0 := by
      rw [hc6, Nat.mod_self]
    have hi2 : (i + 2) % H.length = 1 := by
      rw [show i + 2 = H.length + 1 by omega, Nat.add_mod_left]
      exact Nat.mod_eq_of_lt (by omega)
    have hv0 : H.getD i (0, 0) = Bu := by
      have h1 := hgetU (U.length - 2) (by omega)
      have h2 : H.getD i (0, 0) = H.getD (L.length - 1 + (U.length - 2)) (0, 0) := by
        congr 1 <;> omega
      rw [h2, h1, hBu]
    have hv1 : H.getD 0 (0, 0) = Mu := by
      rw [hgetL 0 (by omega), hL0, hUJval]
    have hv2 : H.getD 1 (0, 0) = l1' := by
      by_cases hKL : 1 < L.length - 1
      · rw [hgetL 1 hKL]
        exact hl1val
      · have h1 := hgetU 0 (by omega)
        rw [Nat.add_zero] at h1
        have h2 : H.getD 1 (0, 0) = H.getD (L.length - 1) (0, 0) := by
          congr 1 <;> omega
        rw [h2, h1, hU0, hM, ← hl1val]
        congr 1 <;> omega
    rw [hi1, hi2, hv0, hv1, hv2]
    have hcQ : (chainStack (q.reverse.map negP)).reverse
        = uu.map negP ++ [negP Bu, negP Mu] := by
      rw [chainStack_negP, ← List.map_reverse, ← hU, hUdec]
      simp
    have hQrev : (q.reverse.map negP).reverse = q.map negP := by
      rw [← List.map_reverse, List.reverse_reverse]
    have hl0Mu : l0' = Mu := by rw [hl0val, hUJval]
    have hdQ : (chainStack ((q.reverse.map negP)).reverse).reverse
        = negP Mu :: negP l1' :: lt.map negP := by
      rw [hQrev, chainStack_negP, ← List.map_reverse, ← hL, hLcc, ← hl0Mu]
      simp
    have hseam2 := seam (q.reverse.map negP) (pairwise_neg_reverse hsor)
      (uu.map negP) (negP Bu) (negP Mu) hcQ (negP l1') (lt.map negP) hdQ
      (by simp only [List.length_map]; omega)
    rw [orientation_negP] at hseam2
    exact hseam2
  by_cases hc5 : i + 2 = H.length
  · -- triple ending at the hull's first vertex (pmin side, inside U)
    rw [Nat.mod_eq_of_lt (by omega)]
    have hi2 : (i + 2) % H.length = 0 := by
      rw [hc5, Nat.mod_self]
    have hv0 : H.getD i (0, 0) = U.getD (U.length - 3) (0, 0) := by
      have h1 := hgetU (U.length - 3) (by omega)
      have h2 : H.getD i (0, 0) = H.getD (L.length - 1 + (U.length - 3)) (0, 0) := by
        congr 1 <;> omega
      rw [h2, h1]
    have hv1 : H.getD (i + 1) (0, 0) = U.getD (U.length - 3 + 1) (0, 0) := by
      have h1 := hgetU (U.length - 2) (by omega)
      have h2 : H.getD (i + 1) (0, 0) = H.getD (L.length - 1 + (U.length - 2)) (0, 0) := by
        congr 1 <;> omega
      rw [h2, h1]
      congr 1 <;> omega
    have hv2 : H.getD ((i + 2) % H.length) (0, 0) = U.getD (U.length - 3 + 2) (0, 0) := by
      rw [hi2, hgetL 0 (by omega), hL0, ← hUJval, hMu]
      congr 1 <;> omega
    rw [hv0, hv1, hv2]
    obtain ⟨u3, v3, hsp⟩ := exists_three_split U (U.length - 3) (by omega)
    exact ne_of_gt (chainReverse_triples q.reverse u3 v3 _ _ _
      (by rw [← hU]; exact hsp))
  · -- fully inside the upper chain
    rw [Nat.mod_eq_of_lt (by omega), Nat.mod_eq_of_lt (by omega)]
    have hv0 : H.getD i (0, 0) = U.getD (i - (L.length - 1)) (0, 0) := by
      have h1 := hgetU (i - (L.length - 1)) (by omega)
      have h2 : H.getD i (0, 0)
          = H.getD (L.length - 1 + (i - (L.length - 1))) (0, 0) := by
        congr 1 <;> omega
      rw [h2, h1]
    have hv1 : H.getD (i + 1) (0, 0) = U.getD (i - (L.length - 1) + 1) (0, 0) := by
      have h1 := hgetU (i - (L.length - 1) + 1) (by omega)
      have h2 : H.getD (i + 1) (0, 0)
          = H.getD (L.length - 1 + (i - (L.length - 1) + 1)) (0, 0) := by
        congr 1 <;> omega
      rw [h2, h1]
    have hv2 : H.getD (i + 2) (0, 0) = U.getD (i - (L.length - 1) + 2) (0, 0) := by
      have h1 := hgetU (i - (L.length - 1) + 2) (by omega)
      have h2 : H.getD (i + 2) (0, 0)
          = H.getD (L.length - 1 + (i - (L.length - 1) + 2)) (0, 0) := by
        congr 1 <;> omega
      rw [h2, h1]
    rw [hv0, hv1, hv2]
    obtain ⟨u3, v3, hsp⟩ := exists_three_split U (i - (L.length - 1)) (by omega)
    exact ne_of_gt (chainReverse_triples q.reverse u3 v3 _ _ _
      (by rw [← hU]; exact hsp))

/-- C8 (amended): the monotone-chain builder satisfies the claim in full:
no three cyclically consecutive vertices of its final hull are ever
collinear - chain-interior triples are strict left turns, and the two seam
triples where the lower and upper chains meet (at the lexicographic
maximum and minimum) are non-collinear as well, because a seam-collinear
chain endpoint neighbour is always popped before the chain closes.  The
divide-and-conquer builder violates the claim (`c8_counterexample`). -/
theorem c8_amended (points : List Point) :
    noCollinearCyclicTriples (andrews_final points) := by
  unfold andrews_final
  split
  · rename_i hle
    intro h3
    exact absurd h3 (by omega)
  · rename_i hgt
    have hq2 : 2 ≤ (sortPoints points).length := by
      rw [(sortPoints_perm points).length_eq]
      omega
    exact hull_triples (sortPoints points) (sortPoints_sorted points) hq2

theorem c8_witness :
    orientation ((andrews_final scenarioA).getD 0 (0, 0))
      ((andrews_final scenarioA).getD (1 % (andrews_final scenarioA).length) (0, 0))
      ((andrews_final scenarioA).getD (2 % (andrews_final scenarioA).length) (0, 0)) ≠ 0 :=
  c8_amended scenarioA (by decide) 0 (by decide)
